import Mathlib

/-!
A verification development for the NameCaseLib-NodeJS declension engine
(version 0.4.1).  The JavaScript core (`NCLNameCaseCore.js`), the per-word
record (`NCLNameCaseWord.js`), and the constants class (`NCL.js`) are
embedded shallowly below; the per-language rule tables of
`NCLNameCaseRu.js` / `NCLNameCaseUa.js` are opaque language-module data and
enter as parameters, exactly as the design document describes them.  The
tiny Unicode helper module `NCLStr.js` is not part of the sources and is
modelled from the specification (see the doc comments).

Strings are modelled as lists of `Lchar`: a cased letter carries a base
code point and an upper-case flag, and every other character (hyphen,
space, ...) is an uncased symbol.  JavaScript runtime errors (thrown
`Error`s, `TypeError`s on calling a non-constructor, `ReferenceError`s on
reading an undeclared identifier) are modelled with `Except String`.
-/

namespace NCLib

/-- A character of a word: either a cased letter (base code point plus an
upper-case flag) or an uncased symbol such as a hyphen or a space. -/
inductive Lchar where
  | letter (base : Nat) (up : Bool)
  | sym (code : Nat)
deriving DecidableEq, Repr

/-- A string is a list of characters. -/
abbrev Str := List Lchar

/-- Modelled from the spec: Unicode-aware lower-casing of one character
(`TextUtils` / `NCLStr` case-fold helper). Uncased symbols are unchanged. -/
def Lchar.toLower : Lchar → Lchar
  | .letter b _ => .letter b false
  | .sym c => .sym c

/-- Modelled from the spec: Unicode-aware upper-casing of one character. -/
def Lchar.toUpper : Lchar → Lchar
  | .letter b _ => .letter b true
  | .sym c => .sym c

/-- Modelled from the spec: `NCLStr.isLowerCase` — true for a lower-case
letter and for an uncased symbol (whose lower-case image is itself). -/
def Lchar.isLowerCase : Lchar → Bool
  | .letter _ up => !up
  | .sym _ => true

/-- The hyphen character `-`. -/
def hyphen : Lchar := .sym 45

/-- The space character. -/
def space : Lchar := .sym 32

/-- The comma character (used by the JavaScript array-to-string coercion). -/
def comma : Lchar := .sym 44

namespace NCLStr

/-- Modelled from the spec: `NCLStr.strtolower`. -/
def strtolower (s : Str) : Str := s.map Lchar.toLower

/-- Modelled from the spec: `NCLStr.strtoupper`. -/
def strtoupper (s : Str) : Str := s.map Lchar.toUpper

/-- Modelled from the spec: `NCLStr.splitLetters` enumerates the letters of
a word; on the list model it is the identity. -/
def splitLetters (s : Str) : List Lchar := s

/-- Modelled from the spec: `NCLStr.strlen`. -/
def strlen (s : Str) : Nat := s.length

/-- Modelled from the spec: `NCLStr.substr start len` — the PHP-style
substring used by the port.  A non-positive length yields the empty
string (the only way the core calls it with a negative length puts the
start at or past the end, where PHP also yields the empty string). -/
def substr (s : Str) (start : Nat) (len : Int) : Str :=
  if len ≤ 0 then [] else (s.drop start).take len.toNat

end NCLStr

/-- The JavaScript string value `'undefined'` that `String` coercion
produces from the `undefined` value (e.g. reading past an array's end and
appending to a string). -/
def jsUndefined : Str :=
  [.letter 117 false, .letter 110 false, .letter 100 false, .letter 101 false,
   .letter 102 false, .letter 105 false, .letter 110 false, .letter 101 false,
   .letter 100 false]

/-- JavaScript `String.prototype.split` with a one-character separator:
splits at every occurrence, keeping empty pieces, and yields `['']` on the
empty string. -/
def jsSplit (sep : Lchar) : Str → List Str
  | [] => [[]]
  | c :: rest =>
    if c = sep then [] :: jsSplit sep rest
    else
      match jsSplit sep rest with
      | f :: r => (c :: f) :: r
      | [] => [[c]]

/-- Anthroponym part type: `N` first name, `S` second name (surname),
`F` father name (patronymic) — the values stored in `namePart`. -/
inductive NamePart where
  | N
  | S
  | F
deriving DecidableEq, Repr

/-- `NCL.MAN` (masculine gender constant). -/
def NCL.MAN : Nat := 1

/-- `NCL.WOMAN` (feminine gender constant). -/
def NCL.WOMAN : Nat := 2

/-- `this.CaseCount = 6` set by the `NCLNameCaseRu` constructor. -/
def ruCaseCount : Nat := 6

/-- `this.CaseCount = 7` set by the `NCLNameCaseUa` constructor. -/
def uaCaseCount : Nat := 7

/-- `NCLNameCaseWord`: the per-token record.  Gender rates are rationals
(the heuristics add weights such as `0.9`); `genderSolved` uses the
source's encoding `0` undetermined / `NCL.MAN` / `NCL.WOMAN`; the letter
mask entry `true` stands for the source's `'X'` (upper) and `false` for
`'x'` (lower). -/
structure NCLNameCaseWord where
  word : Str
  word_orig : Str
  namePart : Option NamePart
  genderMan : ℚ
  genderWoman : ℚ
  genderSolved : Nat
  letterMask : List Bool
  isUpperCase : Bool
  NameCases : List Str
  rule : Int
deriving DecidableEq, Repr

/-- `NCLNameCaseWord.generateMask`: the mask records, per letter, whether
it was upper case, and `isUpperCase` is true when no letter was lower case
(true for the empty word, as the source loop never clears the flag). -/
def generateMask (word : Str) : List Bool × Bool :=
  (word.map (fun c => !c.isLowerCase), word.all (fun c => !c.isLowerCase))

/-- The `NCLNameCaseWord` constructor: stores the original word, generates
the mask, and stores the lower-cased word. -/
def mkWord (w : Str) : NCLNameCaseWord :=
  { word := NCLStr.strtolower w
    word_orig := w
    namePart := none
    genderMan := 0
    genderWoman := 0
    genderSolved := 0
    letterMask := (generateMask w).1
    isUpperCase := (generateMask w).2
    NameCases := []
    rule := 0 }

/-- The per-form body of `NCLNameCaseWord.returnMask` in the non-uppercase
branch: the first `min (strlen kase) (mask length)` characters are
re-emitted, upper-casing those whose mask entry is `'X'`, and then
`substr kase max (caseLength - maskLength)` is appended. -/
def applyMask (splitedMask : List Bool) (kase : Str) : Str :=
  ((List.range (min kase.length splitedMask.length)).map
      (fun letterIndex =>
        let letter := kase.getD letterIndex (.sym 0)
        if splitedMask.getD letterIndex false then letter.toUpper else letter))
    ++ NCLStr.substr kase (min kase.length splitedMask.length)
        ((kase.length : Int) - (splitedMask.length : Int))

/-- `NCLNameCaseWord.returnMask`: upper-cases every case form when the
whole original word was upper case, and otherwise applies the stored
letter mask to every case form. -/
def returnMask (w : NCLNameCaseWord) : NCLNameCaseWord :=
  if w.isUpperCase then
    { w with NameCases := w.NameCases.map NCLStr.strtoupper }
  else
    { w with NameCases := w.NameCases.map (applyMask w.letterMask) }

/-- `NCLNameCaseWord.setNameCases nameCases is_return_mask`: stores the
case forms and, when asked (the default), immediately restores the mask. -/
def setNameCases (w : NCLNameCaseWord) (nameCases : List Str)
    (is_return_mask : Bool) : NCLNameCaseWord :=
  let w1 := { w with NameCases := nameCases }
  if is_return_mask then returnMask w1 else w1

/-- The value of `NCLNameCaseWord.gender()` — the record's solved gender,
or the score comparison `genderMan >= genderWoman ? MAN : WOMAN` when it is
not yet solved.  (The source memoises the computed value back into
`genderSolved`; only the returned value is observable in the flows
verified here.) -/
def genderVal (w : NCLNameCaseWord) : Nat :=
  if w.genderSolved ≠ 0 then w.genderSolved
  else if w.genderMan ≥ w.genderWoman then NCL.MAN else NCL.WOMAN

/-- `NCLNameCaseWord.isGenderSolved`. -/
def isGenderSolved (w : NCLNameCaseWord) : Bool := w.genderSolved ≠ 0

/-- The message of the error thrown by the `instanceof NCLNameCaseWord`
guards of the core. -/
def wordClassErr : String := "word should be of class NCLNameCaseWord"

/-- The message of the error thrown by `RulesChain` / `WordCase` when the
named rule method does not exist on the instance. -/
def methodNotFoundErr : String := "Method not found"

/-- `WordCase` runs `new cls()` with `cls = NCL.getConcreteClass('ru')`;
when no class is registered under `'ru'` the returned value is `null` and
the construction raises a `TypeError`. -/
def typeErrCls : String := "TypeError: cls is not a constructor"

/-- `getFormattedArray` reads the undeclared identifier `index` (the field
is `this.index`), so evaluating the string-template branch raises a
`ReferenceError`. -/
def refErrIndex : String := "ReferenceError: index is not defined"

/-- `splitFullName` calls the bare identifiers `trim` and `explode`, which
are neither defined in `NCLNameCaseCore.js` nor imported (the module
requires only `NCL.js` and `NCLNameCaseWord.js`), so evaluating it raises
a `ReferenceError` before anything else happens. -/
def refErrTrim : String := "ReferenceError: trim is not defined"

/-- The declension scratch state of the core: the working word plus the
`lastRule` / `lastResult` registers that the rule methods write.  (The
`workingLastCache` memo table is a pure optimisation that the design
document requires to be unobservable, so it is not modelled.) -/
structure DeclState where
  workingWord : Str
  lastRule : Int
  lastResult : List Str
deriving DecidableEq, Repr

/-- `setWorkingWord`: resets `lastRule` and `lastResult` (`reset()`) and
installs the new working word. -/
def setWorkingWord (word : Str) : DeclState :=
  { workingWord := word, lastRule := 0, lastResult := [] }

/-- A rule method of a language module: it may rewrite the scratch state
and reports whether it matched.  `RulesChain` resolves rules by name at
run time; a missing method throws, hence the partial table. -/
abbrev RuleMethod := DeclState → DeclState × Bool

/-- A `(gender, name-part)` declension method such as `manSecondName`: it
may throw (its `RulesChain` throws on a missing rule method). -/
abbrev DeclMethod := DeclState → Except String (DeclState × Bool)

/-- `Rule(index)`: records the number of the rule that fired. -/
def Rule (index : Int) (st : DeclState) : DeclState :=
  { st with lastRule := index }

/-- `makeResultTheSame`: sets the result to `CaseCount` copies of the
working word. -/
def makeResultTheSame (CaseCount : Nat) (st : DeclState) : DeclState :=
  { st with lastResult := List.replicate CaseCount st.workingWord }

/-- `wordForms word endings replaceLast`: the nominative slot receives the
working word, and each further slot `k` (for `1 ≤ k < CaseCount`) receives
the stem (the word with `replaceLast` trailing characters removed) plus
`endings[k-1]`; a missing ending is the JavaScript `undefined` coerced to
the string `'undefined'` by the `+` concatenation. -/
def wordForms (CaseCount : Nat) (st : DeclState) (word : Str)
    (endings : List Str) (replaceLast : Nat) : DeclState :=
  let stem := word.take (word.length - replaceLast)
  { st with
    lastResult :=
      st.workingWord ::
        (List.range (CaseCount - 1)).map
          (fun i => stem ++ endings.getD i jsUndefined) }

/-- `RulesChain gender rulesArray`: resolves each rule id in order against
the method table (throwing when the method is missing), runs it, and stops
at the first rule that reports success.  The result additionally carries
the trace of the rule ids that were actually invoked, in order. -/
def RulesChain (table : Int → Option RuleMethod) :
    List Int → DeclState → Except String (DeclState × Bool × List Int)
  | [], st => .ok (st, false, [])
  | ruleID :: rest, st =>
    match table ruleID with
    | none => .error methodNotFoundErr
    | some rule =>
      let res := rule st
      if res.2 then .ok (res.1, true, [ruleID])
      else
        match RulesChain table rest res.1 with
        | .ok (st₂, b, tr) => .ok (st₂, b, ruleID :: tr)
        | .error e => .error e

/-- A declension method that is exactly a rules chain, as in
`manSecondName() { return this.RulesChain('man', [8, 4, 5, 6, 7]); }`. -/
def chainMethod (table : Int → Option RuleMethod) (ids : List Int) :
    DeclMethod := fun st =>
  match RulesChain table ids st with
  | .ok (st₁, b, _) => .ok (st₁, b)
  | .error e => .error e

/-- One step of the `result` object update in `WordCase`'s recombination
loop: `result[k] = result.hasOwnProperty(k) ? result[k] + '-' + namecase
: namecase`.  The association list keeps JavaScript's integer-key
enumeration order (keys are only ever inserted in ascending order here). -/
def jsObjUpsert : List (Nat × Str) → Nat → Str → List (Nat × Str)
  | [], k, v => [(k, v)]
  | (k', v') :: rest, k, v =>
    if k' = k then (k', v' ++ [hyphen] ++ v) :: rest
    else (k', v') :: jsObjUpsert rest k v

/-- The inner loop of the recombination: folds one sub-word's case forms
(enumerated by case index) into the `result` object. -/
def insertPart (m : List (Nat × Str)) (forms : List Str) : List (Nat × Str) :=
  forms.enum.foldl (fun acc p => jsObjUpsert acc p.1 p.2) m

/-- The whole recombination of `WordCase`: every sub-word's case forms are
folded into the `result` object, and `Object.values(result)` reads the
combined forms back in (ascending integer) key order. -/
def combineCases (parts : List (List Str)) : List Str :=
  (parts.foldl insertPart []).map Prod.snd

/-- A loop that applies a possibly-throwing step to every element in
order, aborting at the first thrown error — the evaluation order of the
JavaScript `for` loops (and of `Array.prototype.map` over a throwing
callback) used by the core. -/
def mapEx (f : α → Except String β) : List α → Except String (List β)
  | [] => .ok []
  | a :: l => do
    let b ← f a
    let bs ← mapEx f l
    pure (b :: bs)

/-- JavaScript `Array.prototype.join` with a one-character separator. -/
def jsJoin (sep : Lchar) : List Str → Str
  | [] => []
  | [s] => s
  | s :: rest => s ++ sep :: jsJoin sep rest

/-- The exclusion list entry `'тулуз'` of `WordCase` (lower-case Cyrillic
letters т, у, л, у, з). -/
def tuluz : Str :=
  [.letter 1090 false, .letter 1091 false, .letter 1083 false,
   .letter 1091 false, .letter 1079 false]

/-- The normal-rules path of `WordCase`'s per-sub-token loop: sets the
working word (clearing `lastRule` / `lastResult`), runs the declension
method, and on no match falls back to `CaseCount` copies of the chunk with
the sentinel rule `-1`; the produced forms pass through
`o_ncw.setNameCases(result_tmp)`, whose default re-applies the chunk's own
letter-case mask. -/
def normRulesOutcome (cc : Nat) (method : DeclMethod) (cur_word : Str) :
    Except String (List Str × Int) := do
  let res ← method (setWorkingWord cur_word)
  let result_tmp :=
    if res.2 then (res.1.lastResult, res.1.lastRule)
    else (List.replicate cc cur_word, (-1 : Int))
  let o_ncw := setNameCases (mkWord cur_word) result_tmp.1 true
  pure (o_ncw.NameCases, result_tmp.2)

/-- The body of `WordCase`'s per-sub-token loop for the sub-token
`cur_word` at position `k` of `cnt` hyphen chunks.  For a non-final chunk
of a surname the chunk is re-classified by the concrete class registered
under the literal language code `'ru'` (whatever language the engine
itself is), failing with a `TypeError` when no such class is registered —
except that a chunk whose lower case form is in the exclusion list
`['тулуз']` is never re-classified; a chunk that is not confirmed as a
surname keeps the identity forms with rule `-1`. -/
def subTokenResult (cc : Nat) (method : DeclMethod)
    (registry : List (String × (Str → NamePart)))
    (namePart : Option NamePart) (cnt k : Nat) (cur_word : Str) :
    Except String (List Str × Int) := do
  let is_norm_rules ←
    if namePart = some .S ∧ cnt > 1 ∧ k < cnt - 1 then
      if NCLStr.strtolower cur_word ∈ [tuluz] then pure false
      else
        match registry.lookup "ru" with
        | none => Except.error typeErrCls
        | some detect => pure (detect cur_word == NamePart.S)
    else pure true
  if is_norm_rules then normRulesOutcome cc method cur_word
  else
    let o_ncw := setNameCases (mkWord cur_word) (List.replicate cc cur_word) true
    pure (o_ncw.NameCases, (-1 : Int))

/-- The body of `WordCase` after the declension method has been resolved:
the original word is split on hyphens, every chunk is declined by
`subTokenResult`, the chunk forms are recombined positionally with
hyphens, and the word receives the combined forms (without mask
restoration: `setNameCases(..., false)`) and the last chunk's rule id. -/
def WordCaseRun (cc : Nat) (method : DeclMethod)
    (registry : List (String × (Str → NamePart)))
    (word : NCLNameCaseWord) : Except String NCLNameCaseWord := do
  let cur_words := jsSplit hyphen word.word_orig
  let cnt := cur_words.length
  let rs ← mapEx
    (fun p => subTokenResult cc method registry word.namePart cnt p.1 p.2)
    cur_words.enum
  let result := combineCases (rs.map Prod.fst)
  let last_rule := rs.foldl (fun _ r => r.2) (-1 : Int)
  pure (setNameCases { word with rule := last_rule } result false)

/-- `prepareGender`: when the word's gender is not yet solved, runs the
language module's gender heuristic for the word's name part
(`GenderByFirstName` / `GenderByFatherName` / `GenderBySecondName`); the
heuristic either replaces both rates via `word.setGender(man, woman)` or —
as the patronymic heuristics do when no suffix matches — leaves the word
untouched (`none`).  A word with no name part falls through the switch. -/
def prepareGender (infer : NamePart → Str → Option (ℚ × ℚ))
    (w : NCLNameCaseWord) : NCLNameCaseWord :=
  if isGenderSolved w then w
  else
    match w.namePart with
    | none => w
    | some p =>
      match infer p w.word with
      | none => w
      | some rates => { w with genderMan := rates.1, genderWoman := rates.2 }

/-- `solveGender`: if some word's gender is already solved, the first such
word's gender value is written to every word (`setGender(word.gender())`);
otherwise every word runs `prepareGender` and the masculine and feminine
rates are summed across all words, masculine winning only on a strict
majority (`man > woman`). -/
def solveGender (infer : NamePart → Str → Option (ℚ × ℚ))
    (ws : List NCLNameCaseWord) : List NCLNameCaseWord :=
  match ws.find? (fun w => isGenderSolved w) with
  | some w => ws.map (fun x => { x with genderSolved := genderVal w })
  | none =>
    let acc := ws.foldl
      (fun (a : List NCLNameCaseWord × ℚ × ℚ) word =>
        let w' := prepareGender infer word
        (a.1 ++ [w'], a.2.1 + w'.genderMan, a.2.2 + w'.genderWoman))
      ([], 0, 0)
    let g := if acc.2.1 > acc.2.2 then NCL.MAN else NCL.WOMAN
    acc.1.map (fun x => { x with genderSolved := g })

/-- A JavaScript value flowing through the part index: either an
`NCLNameCaseWord` instance or an array key (the string `for..in` yields). -/
inductive JsVal where
  | word (w : NCLNameCaseWord)
  | key (k : Nat)
deriving DecidableEq, Repr

/-- `generateIndex`: `for (var index in this.words)` enumerates the array
keys, and `this.index[namepart].push(index)` pushes the key itself — not
the word — into the per-part bucket.  (A word whose name part is still
null would make the JavaScript crash on `this.index[null]`; the engine
only indexes classified words.) -/
def generateIndex (ws : List NCLNameCaseWord) : NamePart → List JsVal :=
  fun p => ws.enum.filterMap
    (fun q => if q.2.namePart = some p then some (.key q.1) else none)

/-- The value returned by the case getters: a single string, an array of
strings, or the JavaScript `undefined`. -/
inductive JsRes where
  | one (s : Str)
  | arr (l : List Str)
  | undefv
deriving DecidableEq, Repr

/-- Coercion of a getter result inside `Array.prototype.join`: `undefined`
becomes the empty string there, and a nested array joins with commas. -/
def jsResJoinStr : JsRes → Str
  | .one s => s
  | .arr l => jsJoin comma l
  | .undefv => []

/-- Coercion of a getter result by string concatenation (`result += ...`):
`undefined` becomes the string `'undefined'`. -/
def jsResConcatStr : JsRes → Str
  | .one s => s
  | .arr l => jsJoin comma l
  | .undefv => jsUndefined

/-- `readyArr[i][kase]` in the glue loop of `getCasesConnected`.  The
verified flows only reach this with arrays; indexing into a string (one
character) and into `undefined` are modelled loosely. -/
def jsResCaseAt : JsRes → Nat → Str
  | .arr l, kase => l.getD kase jsUndefined
  | .one s, kase => if kase < s.length then (s.drop kase).take 1 else jsUndefined
  | .undefv, _ => jsUndefined

/-- `getWordCase word number`: throws unless `word` is an
`NCLNameCaseWord` instance.  With `number = null` the guard
`number < 0 || number > CaseCount - 1` is false (`null` coerces to `0`),
so `cases[null]` — the JavaScript `undefined` — is returned; an in-range
number selects one case form and an out-of-range number returns the whole
array. -/
def getWordCase (cc : Nat) (word : JsVal) (number : Option Int) :
    Except String JsRes :=
  match word with
  | .key _ => .error wordClassErr
  | .word w =>
    let cases := w.NameCases
    match number with
    | none => .ok .undefv
    | some n =>
      if n < 0 ∨ n > (cc : Int) - 1 then .ok (.arr cases)
      else
        match cases.get? n.toNat with
        | some s => .ok (.one s)
        | none => .ok .undefv

/-- `getCasesConnected indexArray number`: maps `getWordCase` over the
index entries, then joins — per case index when the first entry is an
array, else as a single space-joined string; the empty index yields the
empty string. -/
def getCasesConnected (cc : Nat) (indexArray : List JsVal)
    (number : Option Int) : Except String JsRes := do
  let readyArr ← mapEx (fun word => getWordCase cc word number) indexArray
  match readyArr with
  | [] => pure (.one [])
  | r0 :: _ =>
    match r0 with
    | .arr _ =>
      pure (.arr ((List.range cc).map (fun kase =>
        jsJoin space (readyArr.map (fun r => jsResCaseAt r kase)))))
    | _ => pure (.one (jsJoin space (readyArr.map jsResJoinStr)))

/-- A language module: the case count, the `(gender, part)` declension
method table (`this[gender + namepart + 'Name']`, `true` standing for
`'man'`), the part classifier `detectNamePart` and the gender heuristics
(§4.2 of the design document; the two concrete modules are
`NCLNameCaseRu` with 6 cases and `NCLNameCaseUa` with 7). -/
structure LangModule where
  CaseCount : Nat
  methods : Bool → Option NamePart → Option DeclMethod
  detectNamePart : Str → NamePart
  inferGender : NamePart → Str → Option (ℚ × ℚ)

/-- The observable state of an `NCLNameCaseCore` engine: the language
module it extends, the global `NCL._concreteClasses` registry, the
`ready` / `finished` flags, the word list and the part index. -/
structure Engine where
  lang : LangModule
  registry : List (String × (Str → NamePart))
  ready : Bool
  finished : Bool
  words : List NCLNameCaseWord
  index : NamePart → List JsVal

/-- `WordCase`: resolves the declension method from the word's gender and
name part (throwing when the method does not exist) and runs the hyphen
splitting loop on it. -/
def WordCase (lang : LangModule)
    (registry : List (String × (Str → NamePart)))
    (word : NCLNameCaseWord) : Except String NCLNameCaseWord :=
  match lang.methods (genderVal word == NCL.MAN) word.namePart with
  | none => .error methodNotFoundErr
  | some method => WordCaseRun lang.CaseCount method registry word

/-- `prepareAllNameParts`: every word without a name part is classified by
the language module's `detectNamePart`. -/
def prepareAllNameParts (lang : LangModule) (ws : List NCLNameCaseWord) :
    List NCLNameCaseWord :=
  ws.map (fun w =>
    if w.namePart = none then
      { w with namePart := some (lang.detectNamePart w.word) }
    else w)

/-- `prepareEverything`: when not ready, classifies all parts, solves the
gender, rebuilds the index and sets the ready flag. -/
def prepareEverything (e : Engine) : Engine :=
  if e.ready then e
  else
    let ws1 := prepareAllNameParts e.lang e.words
    let ws2 := solveGender e.lang.inferGender ws1
    { e with words := ws2, index := generateIndex ws2, ready := true }

/-- `AllWordCases`: when not finished, prepares everything, declines every
word and sets the finished flag. -/
def AllWordCases (e : Engine) : Except String Engine :=
  if e.finished then .ok e
  else do
    let e1 := prepareEverything e
    let ws ← mapEx (WordCase e1.lang e1.registry) e1.words
    pure { e1 with words := ws, finished := true }

/-- `getFirstNameCase number`: runs `AllWordCases`, then connects the
entries of the `'N'` index bucket. -/
def getFirstNameCase (e : Engine) (number : Option Int) :
    Except String JsRes := do
  let e' ← AllWordCases e
  getCasesConnected e'.lang.CaseCount (e'.index .N) number

/-- `getSecondNameCase number`: runs `AllWordCases`, then connects the
entries of the `'S'` index bucket. -/
def getSecondNameCase (e : Engine) (number : Option Int) :
    Except String JsRes := do
  let e' ← AllWordCases e
  getCasesConnected e'.lang.CaseCount (e'.index .S) number

/-- `getFatherNameCase number`: runs `AllWordCases`, then connects the
entries of the `'F'` index bucket. -/
def getFatherNameCase (e : Engine) (number : Option Int) :
    Except String JsRes := do
  let e' ← AllWordCases e
  getCasesConnected e'.lang.CaseCount (e'.index .F) number

/-- The `format` argument of `getFormatted`: either a template string or
an explicit array of word records. -/
inductive Format where
  | str (t : Str)
  | arr (ws : List NCLNameCaseWord)

/-- JavaScript `String.prototype.trim`, modelled on the space character. -/
def jsTrim (s : Str) : Str :=
  ((s.dropWhile (· = space)).reverse.dropWhile (· = space)).reverse

/-- `cases[caseNum]` in `getFormattedHard`: an out-of-range or negative
index yields `undefined`, which the `+` concatenation renders as
`'undefined'`. -/
def jsIndexForms (cases : List Str) (caseNum : Option Int) : Str :=
  match caseNum with
  | none => jsUndefined
  | some n =>
    if 0 ≤ n then
      match cases.get? n.toNat with
      | some s => s
      | none => jsUndefined
    else jsUndefined

/-- `getFormattedArrayHard format`: for every case index, joins each
record's form at that index (plus a space) and trims the line. -/
def getFormattedArrayHard (cc : Nat) (ws : List NCLNameCaseWord) :
    List Str :=
  let cases := ws.map (·.NameCases)
  (List.range cc).map (fun curCase =>
    jsTrim ((cases.map (fun value => value.getD curCase jsUndefined ++ [space])).flatten))

/-- `getFormattedHard caseNum format`: joins each record's form at
`caseNum` (plus a space) and trims. -/
def getFormattedHard (caseNum : Option Int) (ws : List NCLNameCaseWord) :
    Str :=
  jsTrim ((ws.map (fun w => jsIndexForms w.NameCases caseNum ++ [space])).flatten)

/-- `getFormattedArray format`: an array format is delegated to
`getFormattedArrayHard`.  The string-format branch's first statement is
`cases['S'] = this.getCasesConnected(index['S'])`, where `index` is an
undeclared identifier (the field is `this.index`), so its evaluation
raises a `ReferenceError` and the per-case loop below it is dead code. -/
def getFormattedArray (e : Engine) (format : Format) : Except String JsRes :=
  match format with
  | .arr ws => .ok (.arr (getFormattedArrayHard e.lang.CaseCount ws))
  | .str _ => .error refErrIndex

/-- The template marker `'S'`. -/
def markS : Lchar := .letter 83 true

/-- The template marker `'N'`. -/
def markN : Lchar := .letter 78 true

/-- The template marker `'F'`. -/
def markF : Lchar := .letter 70 true

/-- `getFormatted caseNum format`: runs `AllWordCases`; the guard
`caseNum == null || !caseNum` sends both `null` and `0` to
`getFormattedArray`; an array format goes to `getFormattedHard`; a string
format is scanned character by character, each marker spliced with the
per-part getter's result (string concatenation) and any other character
copied through. -/
def getFormatted (e : Engine) (caseNum : Option Int) (format : Format) :
    Except String JsRes := do
  let e' ← AllWordCases e
  if caseNum = none ∨ caseNum = some 0 then
    getFormattedArray e' format
  else
    match format with
    | .arr ws => pure (.one (getFormattedHard caseNum ws))
    | .str t => do
      let pieces ← mapEx (fun symbol =>
        if symbol = markS then
          (getSecondNameCase e' caseNum).map jsResConcatStr
        else if symbol = markN then
          (getFirstNameCase e' caseNum).map jsResConcatStr
        else if symbol = markF then
          (getFatherNameCase e' caseNum).map jsResConcatStr
        else pure [symbol]) t
      pure (.one pieces.flatten)

/-- `splitFullName fullname`: the body's first two statements are
`fullname = trim(fullname)` and `var list = explode(' ', fullname)`, where
`trim` and `explode` are bare identifiers that are neither defined in
`NCLNameCaseCore.js` nor imported by it (the module requires only
`NCL.js` and `NCLNameCaseWord.js`), so evaluation raises a
`ReferenceError` for every input before any word is created. -/
def splitFullName (_e : Engine) (_fullname : Str) :
    Except String (Engine × List NCLNameCaseWord) :=
  .error refErrTrim

/-- `notReady`: clears the `ready` and `finished` flags. -/
def notReady (e : Engine) : Engine := { e with ready := false, finished := false }

/-- `setFirstName`: for a non-empty (truthy) string, appends a new word
record labelled `'N'` and clears readiness. -/
def setFirstName (e : Engine) (firstname : Str) : Engine :=
  if firstname = [] then e
  else notReady { e with
    words := e.words ++ [{ mkWord firstname with namePart := some .N }] }

/-- `setSecondName`: for a non-empty (truthy) string, appends a new word
record labelled `'S'` and clears readiness. -/
def setSecondName (e : Engine) (secondname : Str) : Engine :=
  if secondname = [] then e
  else notReady { e with
    words := e.words ++ [{ mkWord secondname with namePart := some .S }] }

/-- `setFatherName`: for a non-empty (truthy) string, appends a new word
record labelled `'F'` and clears readiness. -/
def setFatherName (e : Engine) (fathername : Str) : Engine :=
  if fathername = [] then e
  else notReady { e with
    words := e.words ++ [{ mkWord fathername with namePart := some .F }] }

/-- `setFullName secondName firstName fatherName`: ingests the first name,
then the second name, then the patronymic (in the source's call order). -/
def setFullName (e : Engine) (secondName firstName fatherName : Str) :
    Engine :=
  setFatherName (setSecondName (setFirstName e firstName) secondName) fatherName

/-!
### Specification-side definitions

`maskSpecAux` / `returnMaskSpec` transcribe the specification's sentence on
letter-case restoration, to be compared with the source's `returnMask`;
`FailsThrough` states that a run of rules is invoked in order, each
declaring no match.
-/

/-- The specification's position-by-position mask application: each
character whose mask entry is uppercase is uppercased, up to the shorter of
the form and the mask; characters beyond the mask's length are left in the
case the declension produced. -/
def maskSpecAux : List Bool → Str → Str
  | _, [] => []
  | [], kase => kase
  | b :: mask, c :: kase =>
    (if b then c.toUpper else c) :: maskSpecAux mask kase

/-- The specification's description of mask restoration for a word whose
original text is `orig`: a fully-uppercase original uppercases every form,
otherwise the per-position mask of `orig` is applied to every form. -/
def returnMaskSpec (orig : Str) (forms : List Str) : List Str :=
  if orig.all (fun c => !c.isLowerCase) then forms.map NCLStr.strtoupper
  else forms.map (maskSpecAux (orig.map (fun c => !c.isLowerCase)))

/-- `FailsThrough table st ids st₁`: starting from `st`, every rule id in
`ids` resolves in `table` and is invoked in order, each reporting no match,
ending in state `st₁`. -/
inductive FailsThrough (table : Int → Option RuleMethod) :
    DeclState → List Int → DeclState → Prop where
  | nil (st : DeclState) : FailsThrough table st [] st
  | cons {st st₁ st₂ : DeclState} {i : Int} {ids : List Int} {f : RuleMethod} :
      table i = some f → f st = (st₁, false) →
      FailsThrough table st₁ ids st₂ → FailsThrough table st (i :: ids) st₂

/-!
### Demonstration instances

Small concrete language-module data used to instantiate the theorems below
on closed inputs.
-/

/-- A declension method on which no rule ever matches. -/
def demoMethodFail : DeclMethod := fun st => .ok (st, false)

/-- A declension method whose single rule always matches, producing six
identical forms via `makeResultTheSame` and recording rule `101`. -/
def demoMethod6 : DeclMethod :=
  fun st => .ok (Rule 101 (makeResultTheSame 6 st), true)

/-- A two-rule table: rule `1` declares no match, rule `2` matches via
`makeResultTheSame`. -/
def demoTable : Int → Option RuleMethod := fun i =>
  if i = 1 then some (fun st => (st, false))
  else if i = 2 then some (fun st => (Rule 2 (makeResultTheSame 3 st), true))
  else none

/-- The lower-case string `аб`. -/
def strAB : Str := [.letter 1072 false, .letter 1073 false]

/-- The capitalized string `Та`. -/
def strTa : Str := [.letter 1090 true, .letter 1072 false]

/-- The hyphenated string `а-б`. -/
def strHyph : Str := [.letter 1072 false, hyphen, .letter 1073 false]

/-- A demonstration language module: 6 cases, every method present and
never matching, everything classified as a first name, no gender
evidence. -/
def demoLang : LangModule :=
  { CaseCount := 6
    methods := fun _ _ => some demoMethodFail
    detectNamePart := fun _ => .N
    inferGender := fun _ _ => none }

/-- A fresh engine over `demoLang` holding the single first-name word
`аб`. -/
def demoEngine : Engine :=
  setFirstName
    { lang := demoLang, registry := [], ready := false, finished := false,
      words := [], index := fun _ => [] }
    strAB

/-- The engine produced by running `AllWordCases` on `demoEngine`. -/
def demoEngine1 : Engine :=
  ((AllWordCases demoEngine).toOption).getD demoEngine

/-- A surname word record for the hyphenated token `а-б`. -/
def demoHyphWord : NCLNameCaseWord :=
  { mkWord strHyph with namePart := some .S }

/-- A classifier that labels every word a surname. -/
def demoDetectS : Str → NamePart := fun _ => NamePart.S

/-- A registry holding `demoDetectS` under the language code `ru`. -/
def demoRegistry : List (String × (Str → NamePart)) := [("ru", demoDetectS)]

/-- The word produced by declining `demoHyphWord` with the never-matching
method and a registry whose `'ru'` classifier confirms surnames. -/
def demoHyphWord1 : NCLNameCaseWord :=
  ((WordCaseRun 6 demoMethodFail demoRegistry demoHyphWord).toOption).getD
    demoHyphWord

/-- The capitalized string `Тулуз`. -/
def strTuluz : Str :=
  [.letter 1090 true, .letter 1091 false, .letter 1083 false,
   .letter 1091 false, .letter 1079 false]

/-- A first-name word record for the capitalized token `Та`. -/
def demoCapWord : NCLNameCaseWord :=
  { mkWord strTa with namePart := some .N }

/-- The word produced by declining `demoCapWord` with the never-matching
method. -/
def demoCapWord1 : NCLNameCaseWord :=
  ((WordCaseRun 6 demoMethodFail [] demoCapWord).toOption).getD demoCapWord

/-- A word record for the lower-case token `аб` labelled as a first
name. -/
def demoWordN : NCLNameCaseWord :=
  { mkWord strAB with namePart := some .N }

/-- The word produced by declining `demoWordN` with the always-matching
six-case method. -/
def demoWordN1 : NCLNameCaseWord :=
  ((WordCaseRun 6 demoMethod6 [] demoWordN).toOption).getD demoWordN

/-- A gender heuristic that rates every word `(2, 1)`. -/
def demoInfer : NamePart → Str → Option (ℚ × ℚ) := fun _ _ => some (2, 1)

/-- Two unsolved words for the gender-aggregation demonstration. -/
def demoWords : List NCLNameCaseWord :=
  [demoWordN, { mkWord strTa with namePart := some .S }]

/-!
### Lemmas on splitting, joining and the letter-case mask
-/

theorem jsSplit_ne_nil (sep : Lchar) (l : Str) : jsSplit sep l ≠ [] := by
  induction l with
  | nil => simp [jsSplit]
  | cons c rest ih =>
    simp only [jsSplit]
    split
    · simp
    · cases h : jsSplit sep rest with
      | nil => exact absurd h ih
      | cons f r => simp

theorem jsSplit_length (sep : Lchar) (l : Str) :
    (jsSplit sep l).length = l.count sep + 1 := by
  induction l with
  | nil => simp [jsSplit]
  | cons c rest ih =>
    simp only [jsSplit]
    by_cases hc : c = sep
    · simp [hc, List.count_cons, ih]
    · cases h : jsSplit sep rest with
      | nil => exact absurd h (jsSplit_ne_nil sep rest)
      | cons f r =>
        simp only [if_neg hc, h, List.length_cons]
        rw [h] at ih
        simp only [List.length_cons] at ih
        simp [List.count_cons, hc, ih]

theorem jsSplit_count (sep : Lchar) (l : Str) :
    ∀ p ∈ jsSplit sep l, p.count sep = 0 := by
  induction l with
  | nil => simp [jsSplit]
  | cons c rest ih =>
    simp only [jsSplit]
    by_cases hc : c = sep
    · simpa [hc] using ih
    · cases h : jsSplit sep rest with
      | nil => exact absurd h (jsSplit_ne_nil sep rest)
      | cons f r =>
        rw [h] at ih
        intro p hp
        simp only [if_neg hc, List.mem_cons] at hp
        rcases hp with hp | hp
        · subst hp
          simp [List.count_cons, hc, ih f (by simp)]
        · exact ih p (by simp [hp])

theorem jsJoin_cons_cons (sep : Lchar) (s x : Str) (xs : List Str) :
    jsJoin sep (s :: x :: xs) = s ++ sep :: jsJoin sep (x :: xs) := rfl

theorem jsJoin_jsSplit (sep : Lchar) (l : Str) :
    jsJoin sep (jsSplit sep l) = l := by
  induction l with
  | nil => simp [jsSplit, jsJoin]
  | cons c rest ih =>
    simp only [jsSplit]
    by_cases hc : c = sep
    · cases h : jsSplit sep rest with
      | nil => exact absurd h (jsSplit_ne_nil sep rest)
      | cons f r =>
        rw [h] at ih
        simp [hc, jsJoin_cons_cons, ih]
    · cases h : jsSplit sep rest with
      | nil => exact absurd h (jsSplit_ne_nil sep rest)
      | cons f r =>
        rw [h] at ih
        cases r with
        | nil => simpa [if_neg hc, jsJoin] using congrArg (c :: ·) ih
        | cons g r' =>
          simp only [if_neg hc, jsJoin_cons_cons] at ih ⊢
          simpa using congrArg (c :: ·) ih

theorem jsJoin_count (c : Lchar) :
    ∀ (parts : List Str), parts ≠ [] → (∀ p ∈ parts, p.count c = 0) →
      (jsJoin c parts).count c = parts.length - 1 := by
  intro parts
  induction parts with
  | nil => simp
  | cons p rest ih =>
    intro _ hall
    cases rest with
    | nil => simpa [jsJoin] using hall p (by simp)
    | cons q r =>
      rw [jsJoin_cons_cons]
      have hp : p.count c = 0 := hall p (by simp)
      have hr := ih (by simp) (fun x hx => hall x (by simp [hx]))
      simp only [List.count_append, hp, List.count_cons, hr]
      simp

theorem maskSpecAux_length (m : List Bool) (k : Str) :
    (maskSpecAux m k).length = k.length := by
  induction m generalizing k with
  | nil => cases k <;> simp [maskSpecAux]
  | cons b m ih => cases k <;> simp [maskSpecAux, ih]

theorem Lchar.toUpper_eq_hyphen (ch : Lchar) :
    (ch.toUpper = hyphen) ↔ ch = hyphen := by
  cases ch with
  | letter b u =>
    constructor
    · intro h
      exact absurd h (by simp [Lchar.toUpper, hyphen])
    · intro h
      exact absurd h (by simp [hyphen])
  | sym s => simp [Lchar.toUpper]

theorem maskSpecAux_count_hyphen (m : List Bool) (k : Str) :
    (maskSpecAux m k).count hyphen = k.count hyphen := by
  induction m generalizing k with
  | nil => cases k <;> simp [maskSpecAux]
  | cons b m ih =>
    cases k with
    | nil => simp [maskSpecAux]
    | cons c rest =>
      have hcond : ((if b then c.toUpper else c) = hyphen) ↔ c = hyphen := by
        by_cases hb : b
        · simpa [hb] using Lchar.toUpper_eq_hyphen c
        · simp [hb]
      simp [maskSpecAux, List.count_cons, ih, hcond]

theorem strtoupper_count_hyphen (k : Str) :
    (NCLStr.strtoupper k).count hyphen = k.count hyphen := by
  induction k with
  | nil => simp [NCLStr.strtoupper]
  | cons c rest ih =>
    simp only [NCLStr.strtoupper, List.map_cons, List.count_cons] at *
    simp [ih, Lchar.toUpper_eq_hyphen c]

theorem maskSpecAux_self (w : Str) :
    maskSpecAux (w.map (fun c => !c.isLowerCase)) w = w := by
  induction w with
  | nil => simp [maskSpecAux]
  | cons c rest ih =>
    simp only [List.map_cons, maskSpecAux, ih]
    cases c with
    | letter b u => cases u <;> simp [Lchar.isLowerCase, Lchar.toUpper]
    | sym s => simp [Lchar.isLowerCase]

theorem strtoupper_all_upper (w : Str)
    (h : w.all (fun c => !c.isLowerCase) = true) :
    NCLStr.strtoupper w = w := by
  induction w with
  | nil => simp [NCLStr.strtoupper]
  | cons c rest ih =>
    simp only [List.all_cons, Bool.and_eq_true] at h
    simp only [NCLStr.strtoupper, List.map_cons]
    rw [show List.map Lchar.toUpper rest = NCLStr.strtoupper rest from rfl,
      ih h.2]
    cases c with
    | letter b u =>
      cases u with
      | false => simp [Lchar.isLowerCase] at h
      | true => simp [Lchar.toUpper]
    | sym s => simp [Lchar.toUpper]

theorem applyMask_eq (m : List Bool) (k : Str) :
    applyMask m k = maskSpecAux m k := by
  induction k generalizing m with
  | nil =>
    have hc : ((0 : Int) - (m.length : Int) ≤ 0) := by omega
    cases m with
    | nil => simp [applyMask, maskSpecAux, NCLStr.substr]
    | cons b m' =>
      simp only [applyMask, maskSpecAux, NCLStr.substr, List.length_nil,
        Nat.zero_min, List.range_zero, List.map_nil, List.nil_append]
      rw [if_pos (by push_cast; omega)]
  | cons c k' ih =>
    cases m with
    | nil =>
      simp only [applyMask, maskSpecAux, NCLStr.substr, List.length_nil,
        Nat.min_zero, List.range_zero, List.map_nil, List.nil_append,
        List.drop_zero, List.length_cons]
      rw [if_neg (by push_cast; omega)]
      rw [show ((((k'.length + 1 : Nat)) : Int) - (((0 : Nat)) : Int)).toNat
            = k'.length + 1 by omega]
      exact List.take_length (c :: k')
    | cons b m' =>
      simp only [applyMask, maskSpecAux, List.length_cons, Nat.succ_min_succ,
        List.range_succ_eq_map, List.map_cons, List.map_map, Function.comp,
        Nat.succ_eq_add_one, List.getD_cons_zero, List.getD_cons_succ,
        NCLStr.substr, List.drop_succ_cons]
      rw [← ih]
      simp only [applyMask, NCLStr.substr]
      rw [show (((k'.length + 1 : Nat) : Int)) - (((m'.length + 1 : Nat) : Int))
            = ((k'.length : Int)) - ((m'.length : Int)) by push_cast; ring]
      congr 2

theorem mask_setNameCases (orig : Str) (forms : List Str) :
    (setNameCases (mkWord orig) forms true).NameCases = returnMaskSpec orig forms := by
  have hfun : applyMask (orig.map (fun c => !c.isLowerCase))
      = maskSpecAux (orig.map (fun c => !c.isLowerCase)) :=
    funext (fun k => applyMask_eq _ k)
  simp only [setNameCases, returnMask, mkWord, generateMask, returnMaskSpec,
    if_true]
  by_cases h : orig.all (fun c => !c.isLowerCase)
  · simp [h]
  · simp [h, hfun]

theorem returnMaskSpec_length (orig : Str) (forms : List Str) :
    (returnMaskSpec orig forms).length = forms.length := by
  unfold returnMaskSpec
  split <;> simp

theorem returnMaskSpec_mem_count (orig : Str) (forms : List Str) :
    ∀ f ∈ returnMaskSpec orig forms, ∃ g ∈ forms,
      f.count hyphen = g.count hyphen := by
  unfold returnMaskSpec
  split
  · intro f hf
    obtain ⟨g, hg, rfl⟩ := List.mem_map.1 hf
    exact ⟨g, hg, strtoupper_count_hyphen g⟩
  · intro f hf
    obtain ⟨g, hg, rfl⟩ := List.mem_map.1 hf
    exact ⟨g, hg, maskSpecAux_count_hyphen _ g⟩

theorem returnMaskSpec_getD_zero (orig : Str) (rest : List Str) :
    (returnMaskSpec orig (orig :: rest)).getD 0 [] = orig := by
  unfold returnMaskSpec
  split
  · rename_i h
    simp [strtoupper_all_upper orig h]
  · simp [maskSpecAux_self]

/-!
### Lemmas on the `result` object of the recombination loop
-/

theorem upsert_skip (m : List (Nat × Str)) (k : Nat) (v : Str)
    (h : ∀ p ∈ m, p.1 ≠ k) : jsObjUpsert m k v = m ++ [(k, v)] := by
  induction m with
  | nil => rfl
  | cons q m ih =>
    obtain ⟨k', v'⟩ := q
    have hq : k' ≠ k := h (k', v') (by simp)
    simp only [jsObjUpsert, if_neg hq, List.cons_append, List.cons.injEq,
      true_and]
    exact ih (fun p hp => h p (by simp [hp]))

theorem upsert_mid (acc : List (Nat × Str)) (n : Nat) (c : Str)
    (rest : List (Nat × Str)) (v : Str) (h : ∀ p ∈ acc, p.1 ≠ n) :
    jsObjUpsert (acc ++ (n, c) :: rest) n v
      = acc ++ (n, c ++ [hyphen] ++ v) :: rest := by
  induction acc with
  | nil => simp [jsObjUpsert]
  | cons q acc ih =>
    obtain ⟨k', v'⟩ := q
    have hq : k' ≠ n := h (k', v') (by simp)
    simp only [List.cons_append, jsObjUpsert, if_neg hq, List.cons.injEq,
      true_and]
    exact ih (fun p hp => h p (by simp [hp]))

theorem insertFold_new (fs : List Str) : ∀ (n : Nat) (m : List (Nat × Str)),
    (∀ p ∈ m, p.1 < n) →
    (List.enumFrom n fs).foldl (fun acc p => jsObjUpsert acc p.1 p.2) m
      = m ++ List.enumFrom n fs := by
  induction fs with
  | nil =>
    intro n m _
    simp
  | cons f fs ih =>
    intro n m hm
    simp only [List.enumFrom_cons, List.foldl_cons]
    rw [upsert_skip m n f (fun p hp => Nat.ne_of_lt (hm p hp))]
    rw [ih (n + 1) (m ++ [(n, f)]) ?hlt]
    · simp
    case hlt =>
      intro p hp
      rcases List.mem_append.1 hp with h1 | h1
      · exact Nat.lt_succ_of_lt (hm p h1)
      · simp only [List.mem_singleton] at h1
        subst h1
        omega

theorem insertFold_upd (fs : List Str) : ∀ (combined : List Str) (n : Nat)
    (acc : List (Nat × Str)), combined.length = fs.length →
    (∀ p ∈ acc, p.1 < n) →
    (List.enumFrom n fs).foldl (fun a p => jsObjUpsert a p.1 p.2)
        (acc ++ List.enumFrom n combined)
      = acc ++ List.enumFrom n
          (List.zipWith (fun a b => a ++ hyphen :: b) combined fs) := by
  induction fs with
  | nil =>
    intro combined n acc hlen _
    cases combined with
    | nil => simp
    | cons c cs => simp at hlen
  | cons f fs ih =>
    intro combined n acc hlen hacc
    cases combined with
    | nil => simp at hlen
    | cons c cs =>
      simp only [List.enumFrom_cons, List.foldl_cons, List.zipWith_cons_cons]
      rw [upsert_mid acc n c (List.enumFrom (n + 1) cs) f
        (fun p hp => Nat.ne_of_lt (hacc p hp))]
      rw [show acc ++ (n, c ++ [hyphen] ++ f) :: List.enumFrom (n + 1) cs
            = (acc ++ [(n, c ++ [hyphen] ++ f)]) ++ List.enumFrom (n + 1) cs by
          simp]
      rw [ih cs (n + 1) (acc ++ [(n, c ++ [hyphen] ++ f)]) (by simpa using hlen)
        ?hlt]
      · simp
      case hlt =>
        intro p hp
        rcases List.mem_append.1 hp with h1 | h1
        · exact Nat.lt_succ_of_lt (hacc p h1)
        · simp only [List.mem_singleton] at h1
          subst h1
          omega

theorem insertPart_nil (forms : List Str) : insertPart [] forms = forms.enum := by
  unfold insertPart
  rw [List.enum_eq_enumFrom]
  simpa using insertFold_new forms 0 [] (by simp)

theorem insertPart_enum (combined forms : List Str)
    (h : combined.length = forms.length) :
    insertPart combined.enum forms
      = (List.zipWith (fun a b => a ++ hyphen :: b) combined forms).enum := by
  unfold insertPart
  rw [List.enum_eq_enumFrom, List.enum_eq_enumFrom]
  simpa using insertFold_upd forms combined 0 [] h (by simp)

theorem combine_fold (ps : List (List Str)) : ∀ (combined : List Str),
    (∀ q ∈ ps, q.length = combined.length) →
    (ps.foldl insertPart combined.enum).map Prod.snd
      = ps.foldl
          (fun acc forms => List.zipWith (fun a b => a ++ hyphen :: b) acc forms)
          combined := by
  induction ps with
  | nil =>
    intro combined _
    simp [List.enum_eq_enumFrom, List.enumFrom_map_snd]
  | cons p ps ih =>
    intro combined hl
    simp only [List.foldl_cons]
    rw [insertPart_enum combined p (hl p (by simp)).symm]
    apply ih
    intro q hq
    rw [List.length_zipWith]
    rw [hl q (by simp [hq]), hl p (by simp)]
    simp

theorem combineCases_cons (p : List Str) (ps : List (List Str))
    (h : ∀ q ∈ ps, q.length = p.length) :
    combineCases (p :: ps)
      = ps.foldl
          (fun acc forms => List.zipWith (fun a b => a ++ hyphen :: b) acc forms)
          p := by
  unfold combineCases
  simp only [List.foldl_cons]
  rw [insertPart_nil]
  exact combine_fold ps p h

theorem zfold_length (ps : List (List Str)) : ∀ (p : List Str),
    (∀ q ∈ ps, q.length = p.length) →
    (ps.foldl
        (fun acc forms => List.zipWith (fun a b => a ++ hyphen :: b) acc forms)
        p).length = p.length := by
  induction ps with
  | nil => intro p _; rfl
  | cons q ps ih =>
    intro p hl
    simp only [List.foldl_cons]
    have hq : q.length = p.length := hl q (by simp)
    have hzip : (List.zipWith (fun a b => a ++ hyphen :: b) p q).length
        = p.length := by
      rw [List.length_zipWith, hq]
      simp
    rw [ih (List.zipWith (fun a b => a ++ hyphen :: b) p q) ?hall, hzip]
    case hall =>
      intro r hr
      rw [hzip]
      exact hl r (by simp [hr])

theorem zipWith_getD_glue (a : List Str) : ∀ (b : List Str) (j : Nat),
    j < a.length → j < b.length →
    (List.zipWith (fun x y => x ++ hyphen :: y) a b).getD j []
      = a.getD j [] ++ hyphen :: b.getD j [] := by
  induction a with
  | nil => intro b j hj _; simp at hj
  | cons x a ih =>
    intro b j hj hb
    cases b with
    | nil => simp at hb
    | cons y b =>
      cases j with
      | zero => simp
      | succ j =>
        simp only [List.zipWith_cons_cons, List.getD_cons_succ]
        exact ih b j (by simpa using hj) (by simpa using hb)

theorem jsJoin_glue (c : Lchar) (x y : Str) (l : List Str) :
    jsJoin c ((x ++ c :: y) :: l) = jsJoin c (x :: y :: l) := by
  cases l with
  | nil => simp [jsJoin, jsJoin_cons_cons]
  | cons z zs => simp [jsJoin_cons_cons]

theorem zfold_getD (ps : List (List Str)) : ∀ (p : List Str) (j : Nat),
    (∀ q ∈ ps, q.length = p.length) → j < p.length →
    (ps.foldl
        (fun acc forms => List.zipWith (fun a b => a ++ hyphen :: b) acc forms)
        p).getD j []
      = jsJoin hyphen ((p :: ps).map (fun q => q.getD j [])) := by
  induction ps with
  | nil => intro p j _ _; simp [jsJoin]
  | cons q ps ih =>
    intro p j hl hj
    simp only [List.foldl_cons]
    have hq : q.length = p.length := hl q (by simp)
    have hzip : (List.zipWith (fun a b => a ++ hyphen :: b) p q).length
        = p.length := by
      rw [List.length_zipWith, hq]
      simp
    rw [ih (List.zipWith (fun a b => a ++ hyphen :: b) p q) j ?hall
      (by rw [hzip]; exact hj)]
    · rw [List.map_cons]
      rw [zipWith_getD_glue p q j hj (by omega)]
      rw [jsJoin_glue]
      simp
    case hall =>
      intro r hr
      rw [hzip]
      exact hl r (by simp [hr])

/-!
### Lemmas on the throwing loops and the per-sub-token results
-/

theorem ok_bind {α β : Type} (a : α) (f : α → Except String β) :
    (Except.ok a >>= f : Except String β) = f a := rfl

theorem error_bind {α β : Type} (e : String) (f : α → Except String β) :
    (Except.error e >>= f : Except String β) = Except.error e := rfl

theorem mapEx_cons {α β : Type} (f : α → Except String β) (a : α) (l : List α) :
    mapEx f (a :: l)
      = (f a >>= fun b => (mapEx f l >>= fun bs => Except.ok (b :: bs))) := rfl

theorem mapEx_ok_iff {α β : Type} (f : α → Except String β) :
    ∀ (l : List α) (r : List β),
      mapEx f l = .ok r ↔ List.Forall₂ (fun a b => f a = .ok b) l r := by
  intro l
  induction l with
  | nil =>
    intro r
    constructor
    · intro h
      simp only [mapEx, Except.ok.injEq] at h
      subst h
      exact List.Forall₂.nil
    · intro h
      cases h
      rfl
  | cons a l ih =>
    intro r
    constructor
    · intro h
      rw [mapEx_cons] at h
      cases hf : f a with
      | error e =>
        rw [hf, error_bind] at h
        simp at h
      | ok b =>
        rw [hf, ok_bind] at h
        cases hl : mapEx f l with
        | error e =>
          rw [hl, error_bind] at h
          simp at h
        | ok bs =>
          rw [hl, ok_bind] at h
          obtain rfl : b :: bs = r := by simpa using h
          exact List.Forall₂.cons hf ((ih bs).1 hl)
    · intro h
      cases h with
      | cons hab hrest =>
        rw [mapEx_cons, hab, ok_bind, (ih _).2 hrest, ok_bind]

theorem mapEx_error_head {α β : Type} (f : α → Except String β) (a : α)
    (l : List α) (e : String) (hf : f a = .error e) :
    mapEx f (a :: l) = .error e := by
  rw [mapEx_cons, hf, error_bind]

theorem mapEx_ok_of_forall {α β : Type} (f : α → Except String β) (g : α → β) :
    ∀ (l : List α), (∀ a ∈ l, f a = .ok (g a)) → mapEx f l = .ok (l.map g) := by
  intro l
  induction l with
  | nil => intro _; rfl
  | cons a l ih =>
    intro h
    rw [mapEx_cons, h a (by simp), ok_bind, ih (fun x hx => h x (by simp [hx])),
      ok_bind, List.map_cons]

theorem forall₂_map_eq {α β γ : Type} {R : α → β → Prop} (g : β → γ)
    (h : α → γ) : ∀ {l : List α} {r : List β}, List.Forall₂ R l r →
    (∀ a b, R a b → g b = h a) → r.map g = l.map h := by
  intro l r hf hgh
  induction hf with
  | nil => rfl
  | cons hab _ ih => simp [hgh _ _ hab, ih]

theorem forall₂_mem_right {α β : Type} {R : α → β → Prop} :
    ∀ {l : List α} {r : List β}, List.Forall₂ R l r →
      ∀ b ∈ r, ∃ a ∈ l, R a b := by
  intro l r hf
  induction hf with
  | nil => simp
  | cons hab _ ih =>
    intro b hb
    rcases List.mem_cons.1 hb with rfl | hb
    · exact ⟨_, by simp, hab⟩
    · obtain ⟨a, ha, hr⟩ := ih b hb
      exact ⟨a, by simp [ha], hr⟩

theorem getD_replicate_lt (x : Str) : ∀ (n j : Nat), j < n →
    (List.replicate n x).getD j [] = x := by
  intro n
  induction n with
  | zero => intro j h; omega
  | succ n ih =>
    intro j h
    cases j with
    | zero => simp [List.replicate]
    | succ j => simpa [List.replicate] using ih j (by omega)

theorem foldl_snd_const (v : Int) : ∀ (rs : List (List Str × Int)),
    (∀ r ∈ rs, r.2 = v) → rs.foldl (fun _ r => r.2) v = v := by
  intro rs
  induction rs with
  | nil => intro _; rfl
  | cons r rs ih =>
    intro h
    simp only [List.foldl_cons]
    rw [h r (by simp)]
    exact ih (fun x hx => h x (by simp [hx]))

theorem returnMaskSpec_replicate_self (w : Str) (n : Nat) :
    returnMaskSpec w (List.replicate n w) = List.replicate n w := by
  unfold returnMaskSpec
  split
  · rename_i h
    rw [List.map_replicate, strtoupper_all_upper w h]
  · rw [List.map_replicate, maskSpecAux_self]

theorem normOutcome_succ (cc : Nat) (method : DeclMethod) (cur : Str)
    (st₁ : DeclState) (hm : method (setWorkingWord cur) = .ok (st₁, true)) :
    normRulesOutcome cc method cur
      = .ok (returnMaskSpec cur st₁.lastResult, st₁.lastRule) := by
  unfold normRulesOutcome
  rw [hm, ok_bind]
  show Except.ok ((setNameCases (mkWord cur) st₁.lastResult true).NameCases,
    st₁.lastRule) = _
  rw [mask_setNameCases]

theorem normOutcome_fail (cc : Nat) (method : DeclMethod) (cur : Str)
    (st₁ : DeclState) (hm : method (setWorkingWord cur) = .ok (st₁, false)) :
    normRulesOutcome cc method cur = .ok (List.replicate cc cur, -1) := by
  unfold normRulesOutcome
  rw [hm, ok_bind]
  show Except.ok
    ((setNameCases (mkWord cur) (List.replicate cc cur) true).NameCases,
      (-1 : Int)) = _
  rw [mask_setNameCases, returnMaskSpec_replicate_self]

theorem normOutcome_shape (cc : Nat) (method : DeclMethod) (cur : Str)
    (r : List Str × Int) (h : normRulesOutcome cc method cur = .ok r) :
    (∃ st₁, method (setWorkingWord cur) = .ok (st₁, true)
        ∧ r = (returnMaskSpec cur st₁.lastResult, st₁.lastRule))
      ∨ r = (List.replicate cc cur, (-1 : Int)) := by
  cases hm : method (setWorkingWord cur) with
  | error e =>
    unfold normRulesOutcome at h
    rw [hm, error_bind] at h
    simp at h
  | ok res =>
    obtain ⟨st₁, b⟩ := res
    cases b with
    | true =>
      rw [normOutcome_succ cc method cur st₁ hm] at h
      injection h with h'
      subst h'
      exact Or.inl ⟨st₁, rfl, rfl⟩
    | false =>
      rw [normOutcome_fail cc method cur st₁ hm] at h
      injection h with h'
      subst h'
      exact Or.inr rfl

theorem subTok_not_reclassified (cc : Nat) (method : DeclMethod)
    (registry : List (String × (Str → NamePart))) (np : Option NamePart)
    (cnt k : Nat) (cur : Str)
    (h : ¬(np = some NamePart.S ∧ cnt > 1 ∧ k < cnt - 1)) :
    subTokenResult cc method registry np cnt k cur
      = normRulesOutcome cc method cur := by
  unfold subTokenResult
  rw [if_neg h, pure_bind]
  rfl

theorem subTok_tuluz (cc : Nat) (method : DeclMethod)
    (registry : List (String × (Str → NamePart))) (np : Option NamePart)
    (cnt k : Nat) (cur : Str) (hS : np = some NamePart.S) (hcnt : cnt > 1)
    (hk : k < cnt - 1) (ht : NCLStr.strtolower cur = tuluz) :
    subTokenResult cc method registry np cnt k cur
      = .ok (List.replicate cc cur, -1) := by
  unfold subTokenResult
  rw [if_pos ⟨hS, hcnt, hk⟩, if_pos (by simp [ht]), pure_bind]
  show Except.ok
    ((setNameCases (mkWord cur) (List.replicate cc cur) true).NameCases,
      (-1 : Int)) = _
  rw [mask_setNameCases, returnMaskSpec_replicate_self]

theorem subTok_ru_missing (cc : Nat) (method : DeclMethod)
    (registry : List (String × (Str → NamePart))) (np : Option NamePart)
    (cnt k : Nat) (cur : Str) (hS : np = some NamePart.S) (hcnt : cnt > 1)
    (hk : k < cnt - 1) (ht : NCLStr.strtolower cur ≠ tuluz)
    (hreg : registry.lookup "ru" = none) :
    subTokenResult cc method registry np cnt k cur = .error typeErrCls := by
  unfold subTokenResult
  rw [if_pos ⟨hS, hcnt, hk⟩, if_neg (by simp [ht])]
  simp only [hreg]
  rfl

theorem subTok_reclassified_other (cc : Nat) (method : DeclMethod)
    (registry : List (String × (Str → NamePart))) (np : Option NamePart)
    (cnt k : Nat) (cur : Str) (d : Str → NamePart) (hS : np = some NamePart.S)
    (hcnt : cnt > 1) (hk : k < cnt - 1) (ht : NCLStr.strtolower cur ≠ tuluz)
    (hreg : registry.lookup "ru" = some d) (hd : d cur ≠ NamePart.S) :
    subTokenResult cc method registry np cnt k cur
      = .ok (List.replicate cc cur, -1) := by
  unfold subTokenResult
  rw [if_pos ⟨hS, hcnt, hk⟩, if_neg (by simp [ht])]
  simp only [hreg, pure_bind, show (d cur == NamePart.S) = false by simp [hd]]
  show Except.ok
    ((setNameCases (mkWord cur) (List.replicate cc cur) true).NameCases,
      (-1 : Int)) = _
  rw [mask_setNameCases, returnMaskSpec_replicate_self]

theorem subTok_reclassified_surname (cc : Nat) (method : DeclMethod)
    (registry : List (String × (Str → NamePart))) (np : Option NamePart)
    (cnt k : Nat) (cur : Str) (d : Str → NamePart) (hS : np = some NamePart.S)
    (hcnt : cnt > 1) (hk : k < cnt - 1) (ht : NCLStr.strtolower cur ≠ tuluz)
    (hreg : registry.lookup "ru" = some d) (hd : d cur = NamePart.S) :
    subTokenResult cc method registry np cnt k cur
      = normRulesOutcome cc method cur := by
  unfold subTokenResult
  rw [if_pos ⟨hS, hcnt, hk⟩, if_neg (by simp [ht])]
  simp only [hreg, pure_bind, show (d cur == NamePart.S) = true by simp [hd]]
  rfl

theorem subTok_ok_shape (cc : Nat) (method : DeclMethod)
    (registry : List (String × (Str → NamePart))) (np : Option NamePart)
    (cnt k : Nat) (cur : Str) (r : List Str × Int)
    (h : subTokenResult cc method registry np cnt k cur = .ok r) :
    (∃ st₁, method (setWorkingWord cur) = .ok (st₁, true)
        ∧ r = (returnMaskSpec cur st₁.lastResult, st₁.lastRule))
      ∨ r = (List.replicate cc cur, (-1 : Int)) := by
  by_cases hcond : np = some NamePart.S ∧ cnt > 1 ∧ k < cnt - 1
  · by_cases htl : NCLStr.strtolower cur = tuluz
    · right
      rw [subTok_tuluz cc method registry np cnt k cur hcond.1 hcond.2.1
        hcond.2.2 htl] at h
      simpa using h.symm
    · cases hreg : registry.lookup "ru" with
      | none =>
        rw [subTok_ru_missing cc method registry np cnt k cur hcond.1 hcond.2.1
          hcond.2.2 htl hreg] at h
        simp at h
      | some d =>
        by_cases hd : d cur = NamePart.S
        · rw [subTok_reclassified_surname cc method registry np cnt k cur d
            hcond.1 hcond.2.1 hcond.2.2 htl hreg hd] at h
          exact normOutcome_shape cc method cur r h
        · right
          rw [subTok_reclassified_other cc method registry np cnt k cur d
            hcond.1 hcond.2.1 hcond.2.2 htl hreg hd] at h
          simpa using h.symm
  · rw [subTok_not_reclassified cc method registry np cnt k cur hcond] at h
    exact normOutcome_shape cc method cur r h

theorem subTok_fail_identity (cc : Nat) (method : DeclMethod)
    (registry : List (String × (Str → NamePart))) (np : Option NamePart)
    (cnt k : Nat) (cur : Str) (d : Str → NamePart)
    (hreg : registry.lookup "ru" = some d)
    (hfail : ∀ st, ∃ st₁, method st = .ok (st₁, false)) :
    subTokenResult cc method registry np cnt k cur
      = .ok (List.replicate cc cur, -1) := by
  obtain ⟨st₁, hm⟩ := hfail (setWorkingWord cur)
  by_cases hcond : np = some NamePart.S ∧ cnt > 1 ∧ k < cnt - 1
  · by_cases htl : NCLStr.strtolower cur = tuluz
    · exact subTok_tuluz cc method registry np cnt k cur hcond.1 hcond.2.1
        hcond.2.2 htl
    · by_cases hd : d cur = NamePart.S
      · rw [subTok_reclassified_surname cc method registry np cnt k cur d
          hcond.1 hcond.2.1 hcond.2.2 htl hreg hd]
        exact normOutcome_fail cc method cur st₁ hm
      · exact subTok_reclassified_other cc method registry np cnt k cur d
          hcond.1 hcond.2.1 hcond.2.2 htl hreg hd
  · rw [subTok_not_reclassified cc method registry np cnt k cur hcond]
    exact normOutcome_fail cc method cur st₁ hm

theorem wordCaseRun_shape (cc : Nat) (method : DeclMethod)
    (registry : List (String × (Str → NamePart))) (word word' : NCLNameCaseWord)
    (h : WordCaseRun cc method registry word = .ok word') :
    ∃ rs, mapEx (fun p => subTokenResult cc method registry word.namePart
            (jsSplit hyphen word.word_orig).length p.1 p.2)
          (jsSplit hyphen word.word_orig).enum = .ok rs
      ∧ word' = { word with
          NameCases := combineCases (rs.map Prod.fst),
          rule := rs.foldl (fun _ r => r.2) (-1) } := by
  cases hm : mapEx (fun p => subTokenResult cc method registry word.namePart
      (jsSplit hyphen word.word_orig).length p.1 p.2)
      (jsSplit hyphen word.word_orig).enum with
  | error e =>
    have hrun : WordCaseRun cc method registry word = .error e := by
      unfold WordCaseRun
      simp only [hm, error_bind]
    rw [hrun] at h
    simp at h
  | ok rs =>
    refine ⟨rs, rfl, ?_⟩
    have hrun : WordCaseRun cc method registry word
        = .ok { word with
            NameCases := combineCases (rs.map Prod.fst),
            rule := rs.foldl (fun _ r => r.2) (-1) } := by
      unfold WordCaseRun
      simp only [hm, ok_bind]
      rfl
    rw [hrun] at h
    injection h with h'
    exact h'.symm

theorem wordCaseRun_all_fail (cc : Nat) (method : DeclMethod)
    (registry : List (String × (Str → NamePart))) (word : NCLNameCaseWord)
    (d : Str → NamePart) (hreg : registry.lookup "ru" = some d)
    (hfail : ∀ st, ∃ st₁, method st = .ok (st₁, false)) :
    WordCaseRun cc method registry word
      = .ok { word with
          NameCases := List.replicate cc word.word_orig, rule := -1 } := by
  have hmap : mapEx (fun p => subTokenResult cc method registry word.namePart
        (jsSplit hyphen word.word_orig).length p.1 p.2)
      (jsSplit hyphen word.word_orig).enum
      = .ok ((jsSplit hyphen word.word_orig).enum.map
          (fun p => (List.replicate cc p.2, (-1 : Int)))) := by
    apply mapEx_ok_of_forall
    intro p _
    exact subTok_fail_identity cc method registry word.namePart
      (jsSplit hyphen word.word_orig).length p.1 p.2 d hreg hfail
  unfold WordCaseRun
  simp only [hmap, ok_bind]
  have hparts : ((jsSplit hyphen word.word_orig).enum.map
        (fun p => (List.replicate cc p.2, (-1 : Int)))).map Prod.fst
      = (jsSplit hyphen word.word_orig).map
          (fun c => List.replicate cc c) := by
    rw [List.map_map]
    conv_rhs => rw [show jsSplit hyphen word.word_orig
      = ((jsSplit hyphen word.word_orig).enum.map Prod.snd) by
        rw [List.enum_eq_enumFrom, List.enumFrom_map_snd]]
    rw [List.map_map]
    rfl
  have hfold : ((jsSplit hyphen word.word_orig).enum.map
        (fun p => (List.replicate cc p.2, (-1 : Int)))).foldl
        (fun _ r => r.2) (-1) = -1 := by
    apply foldl_snd_const
    intro r hr
    obtain ⟨p, _, rfl⟩ := List.mem_map.1 hr
    rfl
  have hcomb : combineCases ((jsSplit hyphen word.word_orig).map
        (fun c => List.replicate cc c))
      = List.replicate cc word.word_orig := by
    cases hcw : jsSplit hyphen word.word_orig with
    | nil => exact absurd hcw (jsSplit_ne_nil hyphen word.word_orig)
    | cons c cw =>
      rw [List.map_cons,
        combineCases_cons (List.replicate cc c)
          (cw.map (fun x => List.replicate cc x))
          (by intro q hq
              obtain ⟨x, _, rfl⟩ := List.mem_map.1 hq
              simp)]
      rw [List.eq_replicate_iff]
      constructor
      · rw [zfold_length]
        · simp
        · intro q hq
          obtain ⟨x, _, rfl⟩ := List.mem_map.1 hq
          simp
      · intro b hb
        obtain ⟨j, hj, hjb⟩ := List.mem_iff_getElem.1 hb
        have hjlen : j < (List.replicate cc c).length := by
          rw [zfold_length] at hj
          · exact hj
          · intro q hq
            obtain ⟨x, _, rfl⟩ := List.mem_map.1 hq
            simp
        have hjcc : j < cc := by simpa using hjlen
        have hgd := zfold_getD (cw.map (fun x => List.replicate cc x))
          (List.replicate cc c) j
          (by intro q hq
              obtain ⟨x, _, rfl⟩ := List.mem_map.1 hq
              simp)
          hjlen
        rw [List.getD_eq_getElem _ _ (by omega), hjb] at hgd
        rw [hgd]
        rw [List.map_cons, getD_replicate_lt c cc j hjcc, List.map_map]
        rw [List.map_congr_left
          (show ∀ x ∈ cw, ((fun q => q.getD j []) ∘ fun x => List.replicate cc x) x
              = id x by
            intro x _
            simp only [Function.comp, id]
            exact getD_replicate_lt x cc j hjcc)]
        rw [List.map_id]
        rw [show (c :: cw) = jsSplit hyphen word.word_orig from hcw.symm]
        exact jsJoin_jsSplit hyphen word.word_orig
  rw [hparts, hcomb, hfold]
  rfl

/-!
### Lemmas on the engine: the index, the getters and gender resolution
-/

theorem generateIndex_keys (ws : List NCLNameCaseWord) (p : NamePart) :
    ∀ v ∈ generateIndex ws p, ∃ i, v = .key i := by
  intro v hv
  unfold generateIndex at hv
  obtain ⟨q, _, hq⟩ := List.mem_filterMap.1 hv
  by_cases h : q.2.namePart = some p
  · rw [if_pos h] at hq
    exact ⟨q.1, (by simpa using hq.symm)⟩
  · rw [if_neg h] at hq
    cases hq

theorem getWordCase_key (cc : Nat) (i : Nat) (number : Option Int) :
    getWordCase cc (.key i) number = .error wordClassErr := rfl

theorem getCasesConnected_key_head (cc : Nat) (i : Nat) (rest : List JsVal)
    (number : Option Int) :
    getCasesConnected cc (.key i :: rest) number = .error wordClassErr := by
  unfold getCasesConnected
  rw [mapEx_error_head (fun word => getWordCase cc word number) (.key i) rest
    wordClassErr rfl]
  rfl

theorem allWordCases_fresh (e e' : Engine) (hready : e.ready = false)
    (hfin : e.finished = false) (h : AllWordCases e = .ok e') :
    e'.index = generateIndex (solveGender e.lang.inferGender
        (prepareAllNameParts e.lang e.words))
      ∧ e'.lang = e.lang ∧ e'.finished = true := by
  unfold AllWordCases prepareEverything at h
  rw [hready, hfin] at h
  simp only [Bool.false_eq_true, if_false] at h
  cases hm : mapEx
      (WordCase
        { e with
          words := solveGender e.lang.inferGender
            (prepareAllNameParts e.lang e.words),
          index := generateIndex (solveGender e.lang.inferGender
            (prepareAllNameParts e.lang e.words)),
          ready := true }.lang
        { e with
          words := solveGender e.lang.inferGender
            (prepareAllNameParts e.lang e.words),
          index := generateIndex (solveGender e.lang.inferGender
            (prepareAllNameParts e.lang e.words)),
          ready := true }.registry)
      { e with
        words := solveGender e.lang.inferGender
          (prepareAllNameParts e.lang e.words),
        index := generateIndex (solveGender e.lang.inferGender
          (prepareAllNameParts e.lang e.words)),
        ready := true }.words with
  | error er =>
    rw [hm, error_bind] at h
    simp at h
  | ok ws =>
    rw [hm, ok_bind] at h
    injection h with h'
    subst h'
    exact ⟨rfl, rfl, rfl⟩

theorem getFirstNameCase_eq (e e' : Engine) (h : AllWordCases e = .ok e')
    (number : Option Int) :
    getFirstNameCase e number
      = getCasesConnected e'.lang.CaseCount (e'.index .N) number := by
  unfold getFirstNameCase
  rw [h, ok_bind]

theorem getSecondNameCase_eq (e e' : Engine) (h : AllWordCases e = .ok e')
    (number : Option Int) :
    getSecondNameCase e number
      = getCasesConnected e'.lang.CaseCount (e'.index .S) number := by
  unfold getSecondNameCase
  rw [h, ok_bind]

theorem getFatherNameCase_eq (e e' : Engine) (h : AllWordCases e = .ok e')
    (number : Option Int) :
    getFatherNameCase e number
      = getCasesConnected e'.lang.CaseCount (e'.index .F) number := by
  unfold getFatherNameCase
  rw [h, ok_bind]

theorem solveGender_fold (infer : NamePart → Str → Option (ℚ × ℚ)) :
    ∀ (ws : List NCLNameCaseWord) (acc : List NCLNameCaseWord × ℚ × ℚ),
    ws.foldl
        (fun (a : List NCLNameCaseWord × ℚ × ℚ) word =>
          let w' := prepareGender infer word
          (a.1 ++ [w'], a.2.1 + w'.genderMan, a.2.2 + w'.genderWoman)) acc
      = (acc.1 ++ ws.map (prepareGender infer),
         acc.2.1 + ((ws.map (prepareGender infer)).map (·.genderMan)).sum,
         acc.2.2 + ((ws.map (prepareGender infer)).map (·.genderWoman)).sum) := by
  intro ws
  induction ws with
  | nil => intro acc; simp
  | cons w ws ih =>
    intro acc
    simp only [List.foldl_cons, List.map_cons, List.sum_cons]
    rw [ih]
    simp [add_assoc]

theorem wordCaseRun_parts_len (cc : Nat) (method : DeclMethod)
    (registry : List (String × (Str → NamePart))) (word : NCLNameCaseWord)
    (rs : List (List Str × Int))
    (hf2 : List.Forall₂
      (fun a b => subTokenResult cc method registry word.namePart
        (jsSplit hyphen word.word_orig).length a.1 a.2 = .ok b)
      (jsSplit hyphen word.word_orig).enum rs)
    (hlen : ∀ st st₁, method st = .ok (st₁, true) → st₁.lastResult.length = cc) :
    ∀ q ∈ rs.map Prod.fst, q.length = cc := by
  intro q hq
  obtain ⟨r, hr, rfl⟩ := List.mem_map.1 hq
  obtain ⟨p, _, hsub⟩ := forall₂_mem_right hf2 r hr
  rcases subTok_ok_shape _ _ _ _ _ _ _ _ hsub with ⟨st₁, hm, hre⟩ | hre
  · rw [hre]
    show (returnMaskSpec p.2 st₁.lastResult).length = cc
    rw [returnMaskSpec_length]
    exact hlen _ _ hm
  · rw [hre]
    simp

theorem wordCaseRun_parts_hyphen_free (cc : Nat) (method : DeclMethod)
    (registry : List (String × (Str → NamePart))) (word : NCLNameCaseWord)
    (rs : List (List Str × Int))
    (hf2 : List.Forall₂
      (fun a b => subTokenResult cc method registry word.namePart
        (jsSplit hyphen word.word_orig).length a.1 a.2 = .ok b)
      (jsSplit hyphen word.word_orig).enum rs)
    (hhf : ∀ st st₁, method st = .ok (st₁, true) →
      ∀ f ∈ st₁.lastResult, f.count hyphen = 0) :
    ∀ q ∈ rs.map Prod.fst, ∀ g ∈ q, g.count hyphen = 0 := by
  intro q hq g hg
  obtain ⟨r, hr, rfl⟩ := List.mem_map.1 hq
  obtain ⟨p, hp, hsub⟩ := forall₂_mem_right hf2 r hr
  have hcur : p.2.count hyphen = 0 := by
    apply jsSplit_count hyphen word.word_orig
    have : p.2 ∈ (jsSplit hyphen word.word_orig).enum.map Prod.snd :=
      List.mem_map_of_mem Prod.snd hp
    rwa [List.enum_eq_enumFrom, List.enumFrom_map_snd] at this
  rcases subTok_ok_shape _ _ _ _ _ _ _ _ hsub with ⟨st₁, hm, hre⟩ | hre
  · rw [hre] at hg
    obtain ⟨g₀, hg₀, hcnt⟩ := returnMaskSpec_mem_count p.2 st₁.lastResult g hg
    rw [hcnt]
    exact hhf _ _ hm g₀ hg₀
  · rw [hre] at hg
    obtain rfl := List.eq_of_mem_replicate hg
    exact hcur

theorem wordCaseRun_parts_ne_nil (cc : Nat) (method : DeclMethod)
    (registry : List (String × (Str → NamePart))) (word : NCLNameCaseWord)
    (rs : List (List Str × Int))
    (hf2 : List.Forall₂
      (fun a b => subTokenResult cc method registry word.namePart
        (jsSplit hyphen word.word_orig).length a.1 a.2 = .ok b)
      (jsSplit hyphen word.word_orig).enum rs) :
    rs.map Prod.fst ≠ [] := by
  have hlen2 := List.Forall₂.length_eq hf2
  cases hcw : jsSplit hyphen word.word_orig with
  | nil => exact absurd hcw (jsSplit_ne_nil hyphen word.word_orig)
  | cons c cw =>
    rw [hcw] at hlen2
    cases rs with
    | nil => simp at hlen2
    | cons r rs' => simp

theorem wordCaseRun_len (cc : Nat) (method : DeclMethod)
    (registry : List (String × (Str → NamePart)))
    (word word' : NCLNameCaseWord)
    (hlen : ∀ st st₁, method st = .ok (st₁, true) → st₁.lastResult.length = cc)
    (hrun : WordCaseRun cc method registry word = .ok word') :
    word'.NameCases.length = cc := by
  obtain ⟨rs, hmap, rfl⟩ := wordCaseRun_shape cc method registry word word'
    hrun
  have hf2 := (mapEx_ok_iff _ _ _).1 hmap
  have hlens := wordCaseRun_parts_len cc method registry word rs hf2 hlen
  have hne := wordCaseRun_parts_ne_nil cc method registry word rs hf2
  show (combineCases (rs.map Prod.fst)).length = cc
  cases hrs : rs.map Prod.fst with
  | nil => exact absurd hrs hne
  | cons p0 ps =>
    rw [hrs] at hlens
    rw [combineCases_cons p0 ps (fun q hq => by
      rw [hlens q (by simp [hq]), hlens p0 (by simp)])]
    rw [zfold_length ps p0 (fun q hq => by
      rw [hlens q (by simp [hq]), hlens p0 (by simp)])]
    exact hlens p0 (by simp)

/-!
### The claims
-/

/-- Claim C1: the claim states that the per-part getters, called on a
prepared engine with any case number or `null`, return one inflected
string or the full case list without raising an error.  The code refutes
this: `generateIndex` stores the array keys in the part index, and
`getCasesConnected` hands those keys to `getWordCase`, whose
`instanceof NCLNameCaseWord` guard throws — so on every engine whose
declension pass succeeds, each getter with a non-empty part bucket throws
`word should be of class NCLNameCaseWord` for every case number. -/
theorem claim_C1 (e : Engine) (number : Option Int) (e' : Engine)
    (hready : e.ready = false) (hfin : e.finished = false)
    (h : AllWordCases e = .ok e') :
    (e'.index .N ≠ [] → getFirstNameCase e number = .error wordClassErr)
    ∧ (e'.index .S ≠ [] → getSecondNameCase e number = .error wordClassErr)
    ∧ (e'.index .F ≠ [] → getFatherNameCase e number = .error wordClassErr) := by
  obtain ⟨hidx, _, _⟩ := allWordCases_fresh e e' hready hfin h
  have key : ∀ p, e'.index p ≠ [] →
      getCasesConnected e'.lang.CaseCount (e'.index p) number
        = .error wordClassErr := by
    intro p hne
    cases hcase : e'.index p with
    | nil => exact absurd hcase hne
    | cons v rest =>
      have hmem : v ∈ generateIndex (solveGender e.lang.inferGender
          (prepareAllNameParts e.lang e.words)) p := by
        rw [← congrFun hidx p, hcase]
        simp
      obtain ⟨i, rfl⟩ := generateIndex_keys _ p v hmem
      exact getCasesConnected_key_head _ i rest number
  exact ⟨fun hne => by rw [getFirstNameCase_eq e e' h number]; exact key .N hne,
    fun hne => by rw [getSecondNameCase_eq e e' h number]; exact key .S hne,
    fun hne => by rw [getFatherNameCase_eq e e' h number]; exact key .F hne⟩

/-- Witness for C1 on a concrete engine holding one first-name word. -/
theorem claim_C1_witness :
    demoEngine.ready = false ∧ demoEngine1.index .N ≠ []
    ∧ getFirstNameCase demoEngine none = .error wordClassErr :=
  ⟨rfl, by decide,
    (claim_C1 demoEngine none demoEngine1 rfl rfl rfl).1 (by decide)⟩

/-- Claim C2: the claim states that `getFormatted(caseNum, template)`
returns a single string exactly for `caseNum ∈ [0, caseCount)` (including
`0`) and the full case list for `null` or out-of-range `caseNum`.  The
code refutes this for every string template: the guard
`caseNum == null || !caseNum` sends `0` (and `null`) to
`getFormattedArray`, whose string branch reads the undeclared identifier
`index` and raises a `ReferenceError` instead of returning anything. -/
theorem claim_C2 (e : Engine) (t : Str) (e' : Engine)
    (h : AllWordCases e = .ok e') :
    getFormatted e none (.str t) = .error refErrIndex
    ∧ getFormatted e (some 0) (.str t) = .error refErrIndex := by
  constructor
  · unfold getFormatted
    rw [h, ok_bind, if_pos (Or.inl rfl)]
    rfl
  · unfold getFormatted
    rw [h, ok_bind, if_pos (Or.inr rfl)]
    rfl

/-- Witness for C2 on a concrete engine and template. -/
theorem claim_C2_witness :
    getFormatted demoEngine none (.str strAB) = .error refErrIndex
    ∧ getFormatted demoEngine (some 0) (.str strAB) = .error refErrIndex :=
  claim_C2 demoEngine strAB demoEngine1 rfl

/-- Claim C3: the claim states that `splitFullName` tokenizes the input,
appends one record per token, runs the prepare pipeline and returns the
records without error for any ordinary full-name string.  The code
refutes this for every input: the body's first statement calls the
undefined identifier `trim` (and then `explode`), neither defined nor
imported by `NCLNameCaseCore.js`, so every call raises a
`ReferenceError`. -/
theorem claim_C3 (e : Engine) (s : Str) :
    splitFullName e s = .error refErrTrim := rfl

/-- Claim C4: on a word set with no solved gender, `solveGender` runs the
module's gender inference for every word, sums the masculine and feminine
rates across all words, and marks every word Masculine exactly when the
masculine total strictly exceeds the feminine total (ties go Feminine);
when some word already carries a solved gender, the first such word's
value is propagated to every word. -/
theorem claim_C4 (infer : NamePart → Str → Option (ℚ × ℚ))
    (ws : List NCLNameCaseWord) :
    ((∀ w ∈ ws, w.genderSolved = 0) →
      ∀ w' ∈ solveGender infer ws, w'.genderSolved =
        (if ((ws.map (prepareGender infer)).map (·.genderMan)).sum
            > ((ws.map (prepareGender infer)).map (·.genderWoman)).sum
         then NCL.MAN else NCL.WOMAN))
    ∧ (∀ w₀, ws.find? (fun w => isGenderSolved w) = some w₀ →
        ∀ w' ∈ solveGender infer ws, w'.genderSolved = genderVal w₀) := by
  constructor
  · intro hall w' hw'
    have hfind : ws.find? (fun w => isGenderSolved w) = none := by
      rw [List.find?_eq_none]
      intro x hx
      simp [isGenderSolved, hall x hx]
    unfold solveGender at hw'
    rw [hfind, solveGender_fold infer ws ([], 0, 0)] at hw'
    simp only [List.nil_append, zero_add] at hw'
    obtain ⟨x, _, rfl⟩ := List.mem_map.1 hw'
    rfl
  · intro w₀ hfind w' hw'
    unfold solveGender at hw'
    rw [hfind] at hw'
    obtain ⟨x, _, rfl⟩ := List.mem_map.1 hw'
    rfl

/-- Witness for C4: two unsolved words rated `(2, 1)` each. -/
theorem claim_C4_witness :
    (∀ w ∈ demoWords, w.genderSolved = 0)
    ∧ ∀ w' ∈ solveGender demoInfer demoWords, w'.genderSolved =
        (if ((demoWords.map (prepareGender demoInfer)).map
              (·.genderMan)).sum
            > ((demoWords.map (prepareGender demoInfer)).map
              (·.genderWoman)).sum
         then NCL.MAN else NCL.WOMAN) :=
  ⟨by decide, (claim_C4 demoInfer demoWords).1 (by decide)⟩

/-- Claim C5: `RulesChain` invokes the rules in exactly the given order and
stops at the first rule that reports success (the conclusion's trace
`pre ++ [r]` is the list of invoked rule ids); and when every rule of the
chain declares no match for a token, `WordCase` stores the identity
transform — `CaseCount` copies of the token — as a normal result with the
sentinel rule id `-1`. -/
theorem claim_C5 :
    (∀ (table : Int → Option RuleMethod) (st st₁ st₂ : DeclState)
        (pre post : List Int) (r : Int) (f : RuleMethod),
      FailsThrough table st pre st₁ → table r = some f →
      f st₁ = (st₂, true) →
      RulesChain table (pre ++ r :: post) st = .ok (st₂, true, pre ++ [r]))
    ∧ (∀ (cc : Nat) (table : Int → Option RuleMethod) (ids : List Int)
        (registry : List (String × (Str → NamePart)))
        (d : Str → NamePart) (word : NCLNameCaseWord),
      registry.lookup "ru" = some d →
      (∀ st, ∃ st' tr, RulesChain table ids st = .ok (st', false, tr)) →
      WordCaseRun cc (chainMethod table ids) registry word
        = .ok { word with
            NameCases := List.replicate cc word.word_orig, rule := -1 }) := by
  constructor
  · intro table st st₁ st₂ pre post r f hpre hr hf
    induction hpre with
    | nil =>
      simp only [List.nil_append]
      unfold RulesChain
      rw [hr]
      simp [hf]
    | cons hi hfi _ ih =>
      simp only [List.cons_append]
      unfold RulesChain
      rw [hi]
      simp only [hfi, Bool.false_eq_true, if_false]
      rw [ih hf]
  · intro cc table ids registry d word hreg hfail
    apply wordCaseRun_all_fail cc (chainMethod table ids) registry word d hreg
    intro st
    obtain ⟨st', tr, hrc⟩ := hfail st
    refine ⟨st', ?_⟩
    unfold chainMethod
    rw [hrc]

/-- Witness for C5: a two-rule chain where rule 1 declines to match and
rule 2 matches, plus a failing chain on a hyphenated surname. -/
theorem claim_C5_witness :
    RulesChain demoTable ([1] ++ 2 :: []) (setWorkingWord strAB)
      = .ok (Rule 2 (makeResultTheSame 3 (setWorkingWord strAB)), true,
          [1] ++ [2])
    ∧ WordCaseRun 3 (chainMethod demoTable []) demoRegistry demoHyphWord
      = .ok { demoHyphWord with
          NameCases := List.replicate 3 demoHyphWord.word_orig,
          rule := -1 } :=
  ⟨claim_C5.1 demoTable (setWorkingWord strAB) (setWorkingWord strAB)
      (Rule 2 (makeResultTheSame 3 (setWorkingWord strAB))) [1] [] 2
      (fun st => (Rule 2 (makeResultTheSame 3 st), true))
      (FailsThrough.cons rfl rfl (FailsThrough.nil _)) rfl rfl,
    claim_C5.2 3 demoTable [] demoRegistry demoDetectS demoHyphWord rfl
      (fun st => ⟨st, [], rfl⟩)⟩

/-- Claim C6: every word record declined by `WordCase` — via a matching
rule whose results have the language's case count, the identity fallback
or hyphen recombination — stores a case-form array of length exactly
`CaseCount`; `wordForms` and `makeResultTheSame`, the constructors used by
the language rules, always produce `CaseCount` forms; the Russian module's
case count is 6 and the Ukrainian module's is 7. -/
theorem claim_C6 :
    (∀ (cc : Nat) (st : DeclState) (word : Str) (endings : List Str)
        (replaceLast : Nat), 1 ≤ cc →
      (wordForms cc st word endings replaceLast).lastResult.length = cc)
    ∧ (∀ (cc : Nat) (st : DeclState),
        (makeResultTheSame cc st).lastResult.length = cc)
    ∧ (∀ (cc : Nat) (method : DeclMethod)
        (registry : List (String × (Str → NamePart)))
        (word word' : NCLNameCaseWord),
      (∀ st st₁, method st = .ok (st₁, true) → st₁.lastResult.length = cc) →
      WordCaseRun cc method registry word = .ok word' →
      word'.NameCases.length = cc)
    ∧ ruCaseCount = 6 ∧ uaCaseCount = 7 := by
  refine ⟨?_, ?_, ?_, rfl, rfl⟩
  · intro cc st word endings rl hcc
    simp only [wordForms, List.length_cons, List.length_map,
      List.length_range]
    omega
  · intro cc st
    simp [makeResultTheSame]
  · intro cc method registry word word' hlen hrun
    exact wordCaseRun_len cc method registry word word' hlen hrun

/-- Witness for C6: a six-case method built from `makeResultTheSame`
declining a plain word. -/
theorem claim_C6_witness :
    (wordForms 6 (setWorkingWord strAB) strAB [] 0).lastResult.length = 6
    ∧ demoWordN1.NameCases.length = 6 :=
  ⟨claim_C6.1 6 (setWorkingWord strAB) strAB [] 0 (by omega),
    claim_C6.2.2.1 6 demoMethod6 [] demoWordN demoWordN1
      (by
        intro st st₁ hm
        simp only [demoMethod6, Except.ok.injEq, Prod.mk.injEq] at hm
        rw [← hm.1]
        simp [Rule, makeResultTheSame])
      rfl⟩

/-- Claim C7: after mask restoration (`setNameCases` with the default
`returnMask`) a fully-uppercase original uppercases every stored form;
otherwise each form has the per-position mask of the original applied up
to the shorter of form and mask, uppercasing exactly the positions whose
mask entry is uppercase, and leaving characters beyond the mask's length
in the case the declension produced (`returnMaskSpec` transcribes that
sentence). -/
theorem claim_C7 (orig : Str) (forms : List Str) :
    (setNameCases (mkWord orig) forms true).NameCases
      = returnMaskSpec orig forms :=
  mask_setNameCases orig forms

/-- Claim C8: declining a family-name token with `k` hyphens splits it
into `k + 1` sub-tokens and joins the sub-results per case index with
hyphens, so that — when the rule results themselves contain the case
count's worth of hyphen-free forms — every stored case form contains
exactly `k` hyphens. -/
theorem claim_C8 (cc : Nat) (method : DeclMethod)
    (registry : List (String × (Str → NamePart)))
    (word word' : NCLNameCaseWord)
    (hlen : ∀ st st₁, method st = .ok (st₁, true) → st₁.lastResult.length = cc)
    (hhf : ∀ st st₁, method st = .ok (st₁, true) →
      ∀ f ∈ st₁.lastResult, f.count hyphen = 0)
    (hrun : WordCaseRun cc method registry word = .ok word') :
    (jsSplit hyphen word.word_orig).length = word.word_orig.count hyphen + 1
    ∧ word'.NameCases.length = cc
    ∧ ∀ f ∈ word'.NameCases, f.count hyphen = word.word_orig.count hyphen := by
  refine ⟨jsSplit_length hyphen word.word_orig,
    wordCaseRun_len cc method registry word word' hlen hrun, ?_⟩
  obtain ⟨rs, hmap, hw'⟩ := wordCaseRun_shape cc method registry word word'
    hrun
  have hf2 := (mapEx_ok_iff _ _ _).1 hmap
  have hlens := wordCaseRun_parts_len cc method registry word rs hf2 hlen
  have hfree := wordCaseRun_parts_hyphen_free cc method registry word rs hf2
    hhf
  have hne := wordCaseRun_parts_ne_nil cc method registry word rs hf2
  have hcnt : (rs.map Prod.fst).length = word.word_orig.count hyphen + 1 := by
    rw [List.length_map, ← (List.Forall₂.length_eq hf2), List.enum_length]
    exact jsSplit_length hyphen word.word_orig
  intro f hf
  have hf0 : f ∈ combineCases (rs.map Prod.fst) := by
    rw [hw'] at hf
    exact hf
  cases hrs : rs.map Prod.fst with
  | nil => exact absurd hrs hne
  | cons p0 ps =>
    rw [hrs] at hlens hcnt hfree hf0
    have hlencond : ∀ q ∈ ps, q.length = p0.length := fun q hq => by
      rw [hlens q (by simp [hq]), hlens p0 (by simp)]
    rw [combineCases_cons p0 ps hlencond] at hf0
    obtain ⟨j, hj, hjf⟩ := List.mem_iff_getElem.1 hf0
    have hjlt : j < p0.length := by
      rw [zfold_length ps p0 hlencond] at hj
      exact hj
    have hgd := zfold_getD ps p0 j hlencond hjlt
    rw [List.getD_eq_getElem _ _ hj, hjf] at hgd
    rw [hgd]
    rw [jsJoin_count hyphen ((p0 :: ps).map (fun q => q.getD j [])) (by simp)
      ?hfree0]
    · rw [List.length_map, hcnt]
      simp
    case hfree0 =>
      intro g hg
      obtain ⟨q, hq, rfl⟩ := List.mem_map.1 hg
      have hqlen : j < q.length := by
        rw [hlens q hq]
        rw [hlens p0 (by simp)] at hjlt
        exact hjlt
      rw [List.getD_eq_getElem q [] hqlen]
      exact hfree q hq _ (List.getElem_mem hqlen)

/-- Witness for C8 on the hyphenated surname `а-б` declined by the
identity fallback. -/
theorem claim_C8_witness :
    demoHyphWord1.NameCases.length = 6
    ∧ (demoHyphWord1.NameCases.getD 0 []).count hyphen
        = demoHyphWord.word_orig.count hyphen := by
  have h := claim_C8 6 demoMethodFail demoRegistry demoHyphWord demoHyphWord1
    (by intro st st₁ hm; simp [demoMethodFail] at hm)
    (by intro st st₁ hm; simp [demoMethodFail] at hm)
    rfl
  exact ⟨h.2.1, h.2.2 _ (by decide)⟩

/-- Counterexample for C9 as stated: declining the capitalized token `Та`
through the identity fallback stores the original text `Та` in the
nominative slot, not the normalized lowercase text `та`. -/
theorem claim_C9_counterexample :
    (WordCaseRun 6 demoMethodFail [] demoCapWord).toOption.map
        (fun w => w.NameCases.getD 0 [])
      = some demoCapWord.word_orig
    ∧ demoCapWord.word_orig ≠ demoCapWord.word := by
  decide

/-- Claim C9 (amended): the declension result at case index 0 equals the
token's original text `word_orig` exactly as supplied (original casing,
not the lowercased normalized text): `wordForms` writes the working word
into slot 0, and for every method whose successful results have
`CaseCount` forms with the working word in slot 0 — as `wordForms`-built
rules do — and for the identity fallback, `WordCase` stores `word_orig`
at index 0. -/
theorem claim_C9 :
    (∀ (cc : Nat) (st : DeclState) (w : Str) (endings : List Str)
        (replaceLast : Nat),
      (wordForms cc st w endings replaceLast).lastResult.getD 0 []
        = st.workingWord)
    ∧ (∀ (cc : Nat) (method : DeclMethod)
        (registry : List (String × (Str → NamePart)))
        (word word' : NCLNameCaseWord), 1 ≤ cc →
      (∀ st st₁, method st = .ok (st₁, true) → st₁.lastResult.length = cc) →
      (∀ st st₁, method st = .ok (st₁, true) →
        st₁.lastResult.getD 0 [] = st.workingWord) →
      WordCaseRun cc method registry word = .ok word' →
      word'.NameCases.getD 0 [] = word.word_orig) := by
  constructor
  · intro cc st w endings rl
    simp [wordForms]
  · intro cc method registry word word' hcc hlen hnom hrun
    obtain ⟨rs, hmap, rfl⟩ := wordCaseRun_shape cc method registry word word'
      hrun
    have hf2 := (mapEx_ok_iff _ _ _).1 hmap
    have hlens := wordCaseRun_parts_len cc method registry word rs hf2 hlen
    have hne := wordCaseRun_parts_ne_nil cc method registry word rs hf2
    have hmapeq : rs.map ((fun q => q.getD 0 []) ∘ Prod.fst)
        = (jsSplit hyphen word.word_orig).enum.map Prod.snd := by
      apply forall₂_map_eq ((fun q : List Str => q.getD 0 []) ∘ Prod.fst)
        Prod.snd hf2
      intro a b hab
      rcases subTok_ok_shape _ _ _ _ _ _ _ _ hab with ⟨st₁, hm, hre⟩ | hre
      · rw [hre]
        show (returnMaskSpec a.2 st₁.lastResult).getD 0 [] = a.2
        have hlen1 : st₁.lastResult.length = cc := hlen _ _ hm
        have hnom1 : st₁.lastResult.getD 0 [] = a.2 := hnom _ _ hm
        cases hl : st₁.lastResult with
        | nil =>
          rw [hl] at hlen1
          simp at hlen1
          omega
        | cons x xs =>
          rw [hl] at hnom1
          simp only [List.getD_cons_zero] at hnom1
          rw [hnom1]
          exact returnMaskSpec_getD_zero a.2 xs
      · rw [hre]
        show (List.replicate cc a.2).getD 0 [] = a.2
        exact getD_replicate_lt a.2 cc 0 (by omega)
    rw [List.enum_eq_enumFrom, List.enumFrom_map_snd] at hmapeq
    show (combineCases (rs.map Prod.fst)).getD 0 [] = word.word_orig
    cases hrs : rs.map Prod.fst with
    | nil => exact absurd hrs hne
    | cons p0 ps =>
      rw [hrs] at hlens
      have hlencond : ∀ q ∈ ps, q.length = p0.length := fun q hq => by
        rw [hlens q (by simp [hq]), hlens p0 (by simp)]
      rw [combineCases_cons p0 ps hlencond]
      have h0 : 0 < p0.length := by
        rw [hlens p0 (by simp)]
        omega
      rw [zfold_getD ps p0 0 hlencond h0]
      rw [show (p0 :: ps) = rs.map Prod.fst from hrs.symm]
      rw [List.map_map, hmapeq]
      exact jsJoin_jsSplit hyphen word.word_orig

/-- Witness for C9 (amended) on the capitalized token `Та`. -/
theorem claim_C9_witness :
    (wordForms 6 (setWorkingWord strAB) strAB [] 0).lastResult.getD 0 []
      = (setWorkingWord strAB).workingWord
    ∧ demoCapWord1.NameCases.getD 0 [] = demoCapWord.word_orig :=
  ⟨claim_C9.1 6 (setWorkingWord strAB) strAB [] 0,
    claim_C9.2 6 demoMethodFail [] demoCapWord demoCapWord1 (by omega)
      (by intro st st₁ hm; simp [demoMethodFail] at hm)
      (by intro st st₁ hm; simp [demoMethodFail] at hm)
      rfl⟩

/-- Claim C10: when `WordCase` declines a hyphenated surname, every
sub-token except the last is re-classified by the concrete class looked up
under the literal language code `'ru'` — `subTokenResult` never consults
the engine's own language, so a Ukrainian engine also uses the `'ru'`
entry — and the declension fails with a fatal `TypeError` when no class
is registered under `'ru'`; a sub-token whose lowercase form is `тулуз`
is never re-classified and is always held invariant (identity forms,
rule `-1`); a re-classified sub-token follows the normal rules exactly
when the `'ru'` classifier confirms it as a surname, and is otherwise held
invariant; the last sub-token (and every sub-token of a non-surname) is
never re-classified. -/
theorem claim_C10 :
    (∀ (cc : Nat) (method : DeclMethod)
        (registry : List (String × (Str → NamePart)))
        (word : NCLNameCaseWord),
      word.namePart = some NamePart.S →
      1 ≤ word.word_orig.count hyphen →
      NCLStr.strtolower ((jsSplit hyphen word.word_orig).headD []) ≠ tuluz →
      registry.lookup "ru" = none →
      WordCaseRun cc method registry word = .error typeErrCls)
    ∧ (∀ (cc : Nat) (method : DeclMethod)
        (registry : List (String × (Str → NamePart)))
        (np : Option NamePart) (cnt k : Nat) (cur : Str),
      np = some NamePart.S → cnt > 1 → k < cnt - 1 →
      NCLStr.strtolower cur = tuluz →
      subTokenResult cc method registry np cnt k cur
        = .ok (List.replicate cc cur, -1))
    ∧ (∀ (cc : Nat) (method : DeclMethod)
        (registry : List (String × (Str → NamePart)))
        (np : Option NamePart) (cnt k : Nat) (cur : Str) (d : Str → NamePart),
      np = some NamePart.S → cnt > 1 → k < cnt - 1 →
      NCLStr.strtolower cur ≠ tuluz →
      registry.lookup "ru" = some d → d cur ≠ NamePart.S →
      subTokenResult cc method registry np cnt k cur
        = .ok (List.replicate cc cur, -1))
    ∧ (∀ (cc : Nat) (method : DeclMethod)
        (registry : List (String × (Str → NamePart)))
        (np : Option NamePart) (cnt k : Nat) (cur : Str) (d : Str → NamePart),
      np = some NamePart.S → cnt > 1 → k < cnt - 1 →
      NCLStr.strtolower cur ≠ tuluz →
      registry.lookup "ru" = some d → d cur = NamePart.S →
      subTokenResult cc method registry np cnt k cur
        = normRulesOutcome cc method cur)
    ∧ (∀ (cc : Nat) (method : DeclMethod)
        (registry : List (String × (Str → NamePart)))
        (np : Option NamePart) (cnt k : Nat) (cur : Str),
      ¬(np = some NamePart.S ∧ cnt > 1 ∧ k < cnt - 1) →
      subTokenResult cc method registry np cnt k cur
        = normRulesOutcome cc method cur) := by
  refine ⟨?_, ?_, ?_, ?_, ?_⟩
  · intro cc method registry word hS hcnthy hhead hreg
    have hsplen := jsSplit_length hyphen word.word_orig
    cases hcw : jsSplit hyphen word.word_orig with
    | nil => exact absurd hcw (jsSplit_ne_nil hyphen word.word_orig)
    | cons c cw =>
      rw [hcw] at hsplen hhead
      simp only [List.headD_cons] at hhead
      have hgt : (c :: cw).length > 1 := by
        rw [hsplen]
        omega
      have hsub : subTokenResult cc method registry word.namePart
          (c :: cw).length 0 c = .error typeErrCls :=
        subTok_ru_missing cc method registry word.namePart (c :: cw).length 0 c
          hS hgt (by omega) hhead hreg
      have hmaperr : mapEx (fun p => subTokenResult cc method registry
            word.namePart (c :: cw).length p.1 p.2) (c :: cw).enum
          = .error typeErrCls := by
        rw [List.enum_cons]
        exact mapEx_error_head _ (0, c) (cw.enumFrom 1) typeErrCls hsub
      unfold WordCaseRun
      rw [hcw]
      simp only [hmaperr, error_bind]
  · intro cc method registry np cnt k cur hS hcnt hk ht
    exact subTok_tuluz cc method registry np cnt k cur hS hcnt hk ht
  · intro cc method registry np cnt k cur d hS hcnt hk ht hreg hd
    exact subTok_reclassified_other cc method registry np cnt k cur d hS hcnt
      hk ht hreg hd
  · intro cc method registry np cnt k cur d hS hcnt hk ht hreg hd
    exact subTok_reclassified_surname cc method registry np cnt k cur d hS
      hcnt hk ht hreg hd
  · intro cc method registry np cnt k cur h
    exact subTok_not_reclassified cc method registry np cnt k cur h

/-- Witness for C10: a Ukrainian-only registry still fails, a `тулуз`
chunk is held invariant with no registry at all, and a non-surname token
goes through the normal rules. -/
theorem claim_C10_witness :
    WordCaseRun 6 demoMethodFail [("ua", demoDetectS)] demoHyphWord
      = .error typeErrCls
    ∧ subTokenResult 6 demoMethodFail [] (some NamePart.S) 2 0 strTuluz
      = .ok (List.replicate 6 strTuluz, -1)
    ∧ subTokenResult 6 demoMethodFail demoRegistry (some NamePart.N) 1 0 strAB
      = normRulesOutcome 6 demoMethodFail strAB :=
  ⟨claim_C10.1 6 demoMethodFail [("ua", demoDetectS)] demoHyphWord rfl
      (by decide) (by decide) rfl,
    claim_C10.2.1 6 demoMethodFail [] (some NamePart.S) 2 0 strTuluz rfl
      (by omega) (by omega) (by decide),
    claim_C10.2.2.2.2 6 demoMethodFail demoRegistry (some NamePart.N) 1 0
      strAB (by decide)⟩

end NCLib
